import Mathlib

/-!
# Verification of the DIPLOM market-data synchronization scripts

A shallow embedding of the three Python scripts of the repository
(src/bybit_daily.py, src/fund_interest.py, src/fear_greed_index.py),
together with theorems settling the specification claims about them.

Conventions of the embedding:
* pandas DataFrames holding one timestamped series become lists of `Row`
  values (an integer millisecond timestamp plus a value payload);
* machine integers are `Int`/`Nat` (timestamps fit in 64 bits with huge
  margin, the source never overflows);
* fallible code returns `Option`/`Except`, and the one function that
  swallows exceptions (`_probe_timestamp`) is total, exactly as in the
  source;
* unbounded `while True` loops take a fuel argument; returning `none`
  means the fuel ran out before the loop hit a terminal condition.
-/

/-- One page of a Bybit paginated response, as consumed by the download
loops of `src/fund_interest.py`: the `result.list` records plus the
`result.get('nextPageCursor', '')` continuation token (the empty string
stands for an absent cursor, exactly as in the source). -/
structure Page (α : Type) where
  records : List α
  nextPageCursor : String
deriving Repr, DecidableEq

/-- The Python comparison `next_cursor == cursor` where `cursor` is the
loop variable, initially `None`: comparing a string against `None` is
`False`. -/
def cursorRepeated (nextCursor : String) (cursor : Option String) : Bool :=
  match cursor with
  | none => false
  | some c => nextCursor == c

/-- The cursor variable held by the pagination loop when it enters round
`i`, assuming the loop reached that round: `None` in round 0, and the
`nextPageCursor` adopted from the previous page afterwards. -/
def cursorAt (f : Nat → Page α) : Nat → Option String
  | 0 => none
  | i + 1 => some (f i).nextPageCursor

/-- The pagination loops of `download_open_interest` (src/fund_interest.py
lines 70-108) and `download_funding_rate` (lines 157-194); the two loops
are textually identical up to the record type, so the embedding is generic
in `α`.  `f i` is the page the API returns in round `i`; `fuel` bounds the
number of rounds we unfold the `while True` loop (`none` = fuel exhausted
before a terminal condition). Per round: if the page is empty, stop before
appending; otherwise append the records and stop if the returned cursor is
absent (empty string) or equal to the previous cursor; otherwise adopt the
new cursor. -/
def paginate (f : Nat → Page α) : Nat → Nat → Option String → List α → Option (List α)
  | 0, _, _, _ => none
  | fuel + 1, i, cursor, acc =>
    let p := f i
    if p.records.isEmpty then some acc
    else
      let acc2 := acc ++ p.records
      if p.nextPageCursor == "" || cursorRepeated p.nextPageCursor cursor then some acc2
      else paginate f fuel (i + 1) (some p.nextPageCursor) acc2

/-- Round `i` triggers a terminal condition of the pagination loop
(supposing the loop reached round `i`): empty page, absent cursor, or a
cursor equal to the one adopted in the previous round. -/
def terminalAt (f : Nat → Page α) (i : Nat) : Bool :=
  (f i).records.isEmpty || (f i).nextPageCursor == ""
    || cursorRepeated (f i).nextPageCursor (cursorAt f i)

/-- Number of pages whose records end up in the output when the loop
stops in round `k`: the empty-page terminal drops page `k`, the cursor
terminals keep it. -/
def pagesKept (f : Nat → Page α) (k : Nat) : Nat :=
  if (f k).records.isEmpty then k else k + 1

/-- In-order concatenation of the records of pages `0 .. n-1`. -/
def collected (f : Nat → Page α) (n : Nat) : List α :=
  (List.range n).flatMap fun i => (f i).records

theorem cursorAt_succ (f : Nat → Page α) (i : Nat) :
    cursorAt f (i + 1) = some (f i).nextPageCursor := rfl

theorem collected_zero (f : Nat → Page α) : collected f 0 = [] := rfl

/-- Main unfolding lemma for the pagination loop: starting `d` rounds
before the first terminal round `k`, the loop returns the accumulator
followed by the records of the remaining kept pages. -/
theorem paginate_run (f : Nat → Page α) (k : Nat)
    (hk : terminalAt f k = true)
    (hmin : ∀ j, j < k → terminalAt f j = false) :
    ∀ d acc, d ≤ k →
      paginate f (d + 1) (k - d) (cursorAt f (k - d)) acc
        = some (acc ++ (List.range' (k - d) (pagesKept f k - (k - d))).flatMap
            fun i => (f i).records) := by
  intro d
  induction d with
  | zero =>
    intro acc _
    simp only [Nat.sub_zero]
    by_cases hemp : (f k).records.isEmpty
    · have hkept : pagesKept f k = k := by simp [pagesKept, hemp]
      simp [paginate, hemp, hkept, List.isEmpty_iff.mp hemp]
    · have hkept : pagesKept f k = k + 1 := by simp [pagesKept, hemp]
      have hcur : ((f k).nextPageCursor == ""
          || cursorRepeated (f k).nextPageCursor (cursorAt f k)) = true := by
        have := hk
        simp only [terminalAt, Bool.or_eq_true] at this
        rcases this with (h | h) | h
        · exact absurd h (by simpa using hemp)
        · simp [h]
        · simp [h]
      simp [paginate, hemp, hcur, hkept, List.range'_succ]
  | succ d ih =>
    intro acc hdk
    have hj : k - (d + 1) < k := by omega
    have hnt := hmin _ hj
    simp only [terminalAt, Bool.or_eq_false_iff] at hnt
    obtain ⟨⟨hemp, hcur1⟩, hcur2⟩ := hnt
    have hcur : ((f (k - (d + 1))).nextPageCursor == ""
        || cursorRepeated (f (k - (d + 1))).nextPageCursor (cursorAt f (k - (d + 1)))) = false := by
      simp [hcur1, hcur2]
    have hstep : k - (d + 1) + 1 = k - d := by omega
    have hrange : pagesKept f k - (k - (d + 1))
        = (pagesKept f k - (k - d)) + 1 := by
      have hkd : k ≤ pagesKept f k := by
        unfold pagesKept; split <;> omega
      omega
    calc paginate f (d + 1 + 1) (k - (d + 1)) (cursorAt f (k - (d + 1))) acc
        = paginate f (d + 1) (k - (d + 1) + 1)
            (some (f (k - (d + 1))).nextPageCursor)
            (acc ++ (f (k - (d + 1))).records) := by
          simp [paginate, hemp, hcur]
      _ = paginate f (d + 1) (k - d) (cursorAt f (k - d))
            (acc ++ (f (k - (d + 1))).records) := by
          rw [hstep]
          have : cursorAt f (k - d) = some (f (k - (d + 1))).nextPageCursor := by
            have h1 : k - d = (k - (d + 1)) + 1 := by omega
            rw [h1, cursorAt_succ]
          rw [this]
      _ = some ((acc ++ (f (k - (d + 1))).records)
            ++ (List.range' (k - d) (pagesKept f k - (k - d))).flatMap
              fun i => (f i).records) := ih _ (by omega)
      _ = some (acc ++ (List.range' (k - (d + 1)) (pagesKept f k - (k - (d + 1)))).flatMap
            fun i => (f i).records) := by
          rw [hrange, List.range'_succ, hstep]
          simp [List.flatMap_cons, List.append_assoc]

/-- C1. If the page sequence eventually triggers a terminal condition
(empty page, absent cursor, or repeated cursor) in round `k` and in no
earlier round, then the pagination loop terminates within `k + 1` rounds
and returns the exact in-order concatenation of the records of every page
fetched before the terminal condition: pages `0 .. k-1` plus page `k`
itself unless page `k` is the empty page. -/
theorem paginate_terminates_with_concat (α : Type) (f : Nat → Page α) (k : Nat)
    (hk : terminalAt f k = true)
    (hmin : ∀ j, j < k → terminalAt f j = false) :
    paginate f (k + 1) 0 none [] = some (collected f (pagesKept f k)) := by
  have h := paginate_run f k hk hmin k [] (Nat.le_refl k)
  simp only [Nat.sub_self] at h
  have hc : cursorAt f 0 = none := rfl
  rw [hc] at h
  rw [h]
  simp [collected, List.range_eq_range']

/-- Concrete witness for C1: a fetcher returning page `[1,2]` with cursor
"a", then page `[3]` repeating cursor "a"; the loop stops in round 1 and
returns `[1,2,3]`. -/
theorem paginate_terminates_with_concat_witness :
    terminalAt (fun i => if i == 0 then Page.mk [1, 2] "a" else Page.mk [3] "a") 1 = true
    ∧ (∀ j, j < 1 →
        terminalAt (fun i => if i == 0 then Page.mk [1, 2] "a" else Page.mk [3] "a") j = false)
    ∧ paginate (fun i => if i == 0 then Page.mk [1, 2] "a" else Page.mk [3] "a") 2 0 none []
        = some [1, 2, 3] := by
  refine ⟨by decide, by decide, ?_⟩
  have h := paginate_terminates_with_concat Nat
    (fun i => if i == 0 then Page.mk [1, 2] "a" else Page.mk [3] "a") 1
    (by decide) (by decide)
  simpa [collected, pagesKept] using h

/-- One row of a normalized single-value series: the integer millisecond
timestamp column plus the value column(s), generic in the value payload
(`open_interest` / `funding_rate` floats, the integer sentiment index, or
the whole candle tuple of bybit_daily.csv). The numeric coercions
`astype(int)` / `astype(float)` of the source are modelled by the fields
already carrying their coerced values. -/
structure Row (ν : Type) where
  timestamp : Int
  value : ν
deriving Repr, DecidableEq

/-- Timestamp column of a series. -/
def tsList (l : List (Row ν)) : List Int := l.map fun r => r.timestamp

/-- Sorted ascending by timestamp (the invariant `sort_values('timestamp')`
establishes). -/
def SortedTs (l : List (Row ν)) : Prop :=
  l.Pairwise fun a b => a.timestamp ≤ b.timestamp

/-- Strictly sorted: ascending with no duplicate timestamps. -/
def StrictSortedTs (l : List (Row ν)) : Prop :=
  l.Pairwise fun a b => a.timestamp < b.timestamp

instance : DecidablePred (SortedTs (ν := ν)) := fun l =>
  List.instDecidablePairwise l

instance : DecidablePred (StrictSortedTs (ν := ν)) := fun l =>
  List.instDecidablePairwise l

/-- Insert a row into a list, before the first element whose timestamp is
not smaller; building a sort from this insertion gives a stable ascending
sort by the `timestamp` column, the deterministic model we use for
`DataFrame.sort_values('timestamp')`. -/
def insertByTs (r : Row ν) : List (Row ν) → List (Row ν)
  | [] => [r]
  | x :: xs => if x.timestamp < r.timestamp then x :: insertByTs r xs else r :: x :: xs

/-- `df.sort_values('timestamp')` (src/fund_interest.py lines 119 and 205,
src/bybit_daily.py line 206, src/fear_greed_index.py line 103), modelled
as a stable ascending insertion sort on the timestamp column. -/
def sortByTs (l : List (Row ν)) : List (Row ν) :=
  l.foldr insertByTs []

/-- Worker for `dedupTs`: drop every row whose timestamp was already seen
earlier in the list, keeping the first occurrence. -/
def dedupTsAux (seen : List Int) : List (Row ν) → List (Row ν)
  | [] => []
  | x :: xs =>
    if seen.contains x.timestamp then dedupTsAux seen xs
    else x :: dedupTsAux (x.timestamp :: seen) xs

/-- `df.drop_duplicates(subset=['timestamp'])` with the pandas default
`keep='first'` (src/fund_interest.py lines 120 and 206, src/bybit_daily.py
line 205, src/fear_greed_index.py line 104): among rows sharing a
timestamp, the first one in the frame survives. -/
def dedupTs (l : List (Row ν)) : List (Row ν) :=
  dedupTsAux [] l

/-- The normalization pass applied to the raw records of one endpoint
after column selection and type coercion: sort ascending by timestamp,
then drop duplicate timestamps keeping the first row
(src/fund_interest.py lines 115-120 and 201-206). -/
def normalizeSeries (l : List (Row ν)) : List (Row ν) :=
  dedupTs (sortByTs l)

theorem sortByTs_cons (r : Row ν) (l : List (Row ν)) :
    sortByTs (r :: l) = insertByTs r (sortByTs l) := rfl

theorem insertByTs_perm (r : Row ν) (l : List (Row ν)) :
    List.Perm (insertByTs r l) (r :: l) := by
  induction l with
  | nil => simp [insertByTs]
  | cons x xs ih =>
    simp only [insertByTs]
    split
    · exact ((ih.cons x).trans (List.Perm.swap r x xs)).symm.symm
    · exact List.Perm.refl _

theorem sortByTs_perm (l : List (Row ν)) : List.Perm (sortByTs l) l := by
  induction l with
  | nil => simp [sortByTs]
  | cons x xs ih =>
    rw [sortByTs_cons]
    exact (insertByTs_perm x (sortByTs xs)).trans (ih.cons x)

theorem insertByTs_sorted (r : Row ν) (l : List (Row ν)) (hl : SortedTs l) :
    SortedTs (insertByTs r l) := by
  induction l with
  | nil => simp [insertByTs, SortedTs]
  | cons x xs ih =>
    simp only [insertByTs]
    simp only [SortedTs, List.pairwise_cons] at hl
    obtain ⟨hx, hxs⟩ := hl
    split
    · rename_i hlt
      simp only [SortedTs, List.pairwise_cons]
      refine ⟨?_, ih hxs⟩
      intro b hb
      have hb2 := (insertByTs_perm r xs).mem_iff.mp hb
      rcases List.mem_cons.mp hb2 with h | h
      · subst h; exact le_of_lt hlt
      · exact hx b h
    · rename_i hge
      simp only [SortedTs, List.pairwise_cons]
      constructor
      · intro b hb
        rcases List.mem_cons.mp hb with h | h
        · subst h; omega
        · have := hx b h; omega
      · exact ⟨hx, hxs⟩

theorem sortByTs_sorted (l : List (Row ν)) : SortedTs (sortByTs l) := by
  induction l with
  | nil => simp [sortByTs, SortedTs]
  | cons x xs ih =>
    rw [sortByTs_cons]
    exact insertByTs_sorted x (sortByTs xs) ih

/-- Stability of the sort for `find?` on a fixed timestamp: inserting a
row whose timestamp equals the searched one makes it the first hit,
because the insertion only walks past strictly smaller timestamps. -/
theorem find?_insertByTs_eq (r : Row ν) (l : List (Row ν)) (t : Int) (hr : r.timestamp = t) :
    (insertByTs r l).find? (fun x => x.timestamp == t) = some r := by
  induction l with
  | nil => simp [insertByTs, List.find?, hr]
  | cons x xs ih =>
    simp only [insertByTs]
    split
    · rename_i hlt
      have hx : (x.timestamp == t) = false := by
        simp only [beq_eq_false_iff_ne]; omega
      simp [List.find?, hx, ih]
    · simp [List.find?, hr]

theorem find?_insertByTs_ne (r : Row ν) (l : List (Row ν)) (t : Int) (hr : r.timestamp ≠ t) :
    (insertByTs r l).find? (fun x => x.timestamp == t)
      = l.find? (fun x => x.timestamp == t) := by
  have hrx : (r.timestamp == t) = false := by simp [beq_eq_false_iff_ne, hr]
  induction l with
  | nil => simp [insertByTs, List.find?, hrx]
  | cons x xs ih =>
    simp only [insertByTs]
    split
    · cases hpx : (x.timestamp == t) <;> simp [List.find?, hpx, ih]
    · simp [List.find?, hrx]

/-- The stable sort preserves the first row carrying any given
timestamp. -/
theorem find?_sortByTs (l : List (Row ν)) (t : Int) :
    (sortByTs l).find? (fun x => x.timestamp == t)
      = l.find? (fun x => x.timestamp == t) := by
  induction l with
  | nil => rfl
  | cons x xs ih =>
    rw [sortByTs_cons]
    by_cases hx : x.timestamp = t
    · rw [find?_insertByTs_eq x _ t hx]
      simp [List.find?, hx]
    · rw [find?_insertByTs_ne x _ t hx, ih]
      have hbx : (x.timestamp == t) = false := by simp [beq_eq_false_iff_ne, hx]
      simp [List.find?, hbx]

theorem dedupTsAux_sublist (seen : List Int) (l : List (Row ν)) :
    (dedupTsAux seen l).Sublist l := by
  induction l generalizing seen with
  | nil => simp [dedupTsAux]
  | cons x xs ih =>
    simp only [dedupTsAux]
    split
    · exact (ih seen).trans (List.sublist_cons_self x xs)
    · exact (ih (x.timestamp :: seen)).cons₂ x

/-- A surviving row was not filtered by `seen` and is the first row of the
input carrying its timestamp. -/
theorem dedupTsAux_mem_find? (seen : List Int) (l : List (Row ν)) (r : Row ν)
    (hr : r ∈ dedupTsAux seen l) :
    r.timestamp ∉ seen
      ∧ l.find? (fun x => x.timestamp == r.timestamp) = some r := by
  induction l generalizing seen with
  | nil => simp [dedupTsAux] at hr
  | cons x xs ih =>
    simp only [dedupTsAux] at hr
    by_cases hc : x.timestamp ∈ seen
    · rw [if_pos (by simpa using hc)] at hr
      obtain ⟨h1, h2⟩ := ih seen hr
      have hx : (x.timestamp == r.timestamp) = false := by
        simp only [beq_eq_false_iff_ne]
        intro he
        exact h1 (he ▸ hc)
      exact ⟨h1, by simp [List.find?, hx, h2]⟩
    · rw [if_neg (by simpa using hc)] at hr
      rcases List.mem_cons.mp hr with h | h
      · subst h
        exact ⟨hc, by simp [List.find?]⟩
      · obtain ⟨h1, h2⟩ := ih (x.timestamp :: seen) h
        have hxr : x.timestamp ≠ r.timestamp := by
          intro he
          exact h1 (by simp [he])
        have h1s : r.timestamp ∉ seen := fun hs => h1 (by simp [hs])
        have hx : (x.timestamp == r.timestamp) = false := by
          simp [beq_eq_false_iff_ne, hxr]
        exact ⟨h1s, by simp [List.find?, hx, h2]⟩

/-- The set of timestamps surviving deduplication: everything not already
in `seen`. -/
theorem tsList_dedupTsAux (seen : List Int) (l : List (Row ν)) (t : Int) :
    t ∈ tsList (dedupTsAux seen l) ↔ t ∉ seen ∧ t ∈ tsList l := by
  induction l generalizing seen with
  | nil => simp [dedupTsAux, tsList]
  | cons x xs ih =>
    simp only [dedupTsAux]
    by_cases hc : x.timestamp ∈ seen
    · rw [if_pos (by simpa using hc)]
      rw [ih seen]
      simp only [tsList, List.map_cons, List.mem_cons]
      constructor
      · rintro ⟨h1, h2⟩
        exact ⟨h1, Or.inr h2⟩
      · rintro ⟨h1, h2 | h2⟩
        · exact absurd (h2 ▸ hc) h1
        · exact ⟨h1, h2⟩
    · rw [if_neg (by simpa using hc)]
      simp only [tsList, List.map_cons, List.mem_cons]
      constructor
      · rintro (h | h)
        · exact ⟨h ▸ hc, Or.inl h⟩
        · obtain ⟨h1, h2⟩ := (ih (x.timestamp :: seen)).mp h
          refine ⟨fun hs => h1 (by simp [hs]), Or.inr h2⟩
      · rintro ⟨h1, h2 | h2⟩
        · exact Or.inl h2
        · by_cases hxt : t = x.timestamp
          · exact Or.inl hxt
          · exact Or.inr ((ih (x.timestamp :: seen)).mpr
              ⟨by simp [hxt, h1], h2⟩)

/-- Deduplication leaves no two rows with the same timestamp. -/
theorem dedupTsAux_pairwise_ne (seen : List Int) (l : List (Row ν)) :
    (dedupTsAux seen l).Pairwise fun a b => a.timestamp ≠ b.timestamp := by
  induction l generalizing seen with
  | nil => simp [dedupTsAux]
  | cons x xs ih =>
    simp only [dedupTsAux]
    split
    · exact ih seen
    · refine List.Pairwise.cons ?_ (ih (x.timestamp :: seen))
      intro y hy
      have h1 := (dedupTsAux_mem_find? _ _ _ hy).1
      intro he
      exact h1 (by simp [he])

/-- Deduplicating a list whose timestamps are already distinct (and
disjoint from `seen`) is the identity. -/
theorem dedupTsAux_eq_self (seen : List Int) (l : List (Row ν))
    (hnd : (tsList l).Nodup) (hdisj : ∀ t ∈ tsList l, t ∉ seen) :
    dedupTsAux seen l = l := by
  induction l generalizing seen with
  | nil => rfl
  | cons x xs ih =>
    simp only [dedupTsAux]
    have hx : x.timestamp ∉ seen := hdisj _ (by simp [tsList])
    rw [if_neg (by simpa using hx)]
    simp only [tsList, List.map_cons, List.nodup_cons] at hnd
    congr 1
    refine ih (x.timestamp :: seen) hnd.2 ?_
    intro t ht
    simp only [List.mem_cons, not_or]
    constructor
    · intro he
      exact hnd.1 (he ▸ ht)
    · exact hdisj t (by simp [tsList] at ht ⊢; exact Or.inr ht)

/-- A tail whose rows were all seen already deduplicates to nothing. -/
theorem dedupTsAux_eq_nil (seen : List Int) (l : List (Row ν))
    (h : ∀ x ∈ l, x.timestamp ∈ seen) :
    dedupTsAux seen l = [] := by
  induction l with
  | nil => rfl
  | cons x xs ih =>
    simp only [dedupTsAux]
    rw [if_pos (by simpa using h x (by simp))]
    exact ih fun y hy => h y (by simp [hy])

/-- Appending rows whose timestamps are all already present contributes
nothing to the deduplicated result. -/
theorem dedupTsAux_append_subsumed (seen : List Int) (l r : List (Row ν))
    (h : ∀ x ∈ r, x.timestamp ∈ tsList l ∨ x.timestamp ∈ seen) :
    dedupTsAux seen (l ++ r) = dedupTsAux seen l := by
  induction l generalizing seen with
  | nil =>
    simp only [List.nil_append, dedupTsAux]
    exact dedupTsAux_eq_nil seen r fun x hx => by
      rcases h x hx with hc | hc
      · simp [tsList] at hc
      · exact hc
  | cons y ys ih =>
    simp only [List.cons_append, dedupTsAux]
    by_cases hc : y.timestamp ∈ seen
    · rw [if_pos (by simpa using hc), if_pos (by simpa using hc)]
      refine ih seen ?_
      intro x hx
      rcases h x hx with hm | hm
      · simp only [tsList, List.map_cons, List.mem_cons] at hm
        rcases hm with hm | hm
        · exact Or.inr (hm ▸ hc)
        · exact Or.inl hm
      · exact Or.inr hm
    · rw [if_neg (by simpa using hc), if_neg (by simpa using hc)]
      congr 1
      refine ih (y.timestamp :: seen) ?_
      intro x hx
      rcases h x hx with hm | hm
      · simp only [tsList, List.map_cons, List.mem_cons] at hm
        rcases hm with hm | hm
        · exact Or.inr (by simp [hm])
        · exact Or.inl hm
      · exact Or.inr (by simp [hm])

theorem normalizeSeries_strictSorted (l : List (Row ν)) :
    StrictSortedTs (normalizeSeries l) := by
  have hle : SortedTs (normalizeSeries l) :=
    List.Pairwise.sublist (dedupTsAux_sublist [] (sortByTs l)) (sortByTs_sorted l)
  have hne := dedupTsAux_pairwise_ne [] (sortByTs l)
  exact (hle.and hne).imp fun h => lt_of_le_of_ne h.1 h.2

theorem normalizeSeries_first_wins (l : List (Row ν)) (r : Row ν)
    (hr : r ∈ normalizeSeries l) :
    l.find? (fun x => x.timestamp == r.timestamp) = some r := by
  have h := (dedupTsAux_mem_find? [] (sortByTs l) r hr).2
  rw [find?_sortByTs] at h
  exact h

theorem tsList_normalizeSeries (l : List (Row ν)) (t : Int) :
    t ∈ tsList (normalizeSeries l) ↔ t ∈ tsList l := by
  rw [normalizeSeries, dedupTs, tsList_dedupTsAux]
  have hperm : (tsList (sortByTs l)).Perm (tsList l) :=
    List.Perm.map _ (sortByTs_perm l)
  simp only [List.not_mem_nil, not_false_eq_true, true_and]
  exact hperm.mem_iff

/-- C4 as stated by the spec ("last-seen wins"): every surviving row of
the normalized series carries the values of the last input record with
its timestamp, i.e. the first hit in the reversed input. -/
def lastSeenWins (l : List (Row ν)) : Prop :=
  ∀ r ∈ normalizeSeries l,
    l.reverse.find? (fun x => x.timestamp == r.timestamp) = some r

instance (l : List (Row ν)) [DecidableEq ν] : Decidable (lastSeenWins l) :=
  List.decidableBAll _ _

/-- Counterexample to C4 as stated: on the input `[(1, 20), (1, 10)]` the
surviving row keeps the FIRST-seen value 20, not the last-seen value 10
(`drop_duplicates` defaults to `keep='first'`). -/
theorem lastSeenWins_counterexample :
    ¬ lastSeenWins [Row.mk 1 (20 : Int), Row.mk 1 10] := by decide

/-- C4 (amended). For every list of records, the normalized series is
sorted strictly ascending by timestamp (hence duplicate-free), every
surviving row is the FIRST-seen input record carrying its timestamp
(pandas `sort_values` + `drop_duplicates(keep='first')`), and the set of
timestamps is preserved. -/
theorem normalizeSeries_spec (ν : Type) (l : List (Row ν)) :
    StrictSortedTs (normalizeSeries l)
    ∧ (∀ r ∈ normalizeSeries l,
        l.find? (fun x => x.timestamp == r.timestamp) = some r)
    ∧ (∀ t : Int, t ∈ tsList (normalizeSeries l) ↔ t ∈ tsList l) :=
  ⟨normalizeSeries_strictSorted l,
   fun r hr => normalizeSeries_first_wins l r hr,
   fun t => tsList_normalizeSeries l t⟩

/-- Concrete witness for C4 (amended): on `[(2,5), (1,7), (1,9)]` the
first-seen row `(1,7)` survives as asserted by the theorem. -/
theorem normalizeSeries_spec_witness :
    Row.mk 1 (7 : Int) ∈ normalizeSeries [Row.mk 2 (5 : Int), Row.mk 1 7, Row.mk 1 9]
    ∧ [Row.mk 2 (5 : Int), Row.mk 1 7, Row.mk 1 9].find?
        (fun x => x.timestamp == (Row.mk 1 (7 : Int)).timestamp) = some (Row.mk 1 7) :=
  ⟨by decide,
   (normalizeSeries_spec Int [Row.mk 2 5, Row.mk 1 7, Row.mk 1 9]).2.1
     (Row.mk 1 7) (by decide)⟩

/-- The append-merge of `ByBitDataManager.fetch` (src/bybit_daily.py lines
202-210): concatenate the existing table with the new rows, drop duplicate
timestamps (pandas default keeps the first, i.e. the existing row), then
sort ascending by timestamp. -/
def appendRows (stored new : List (Row ν)) : List (Row ν) :=
  sortByTs (dedupTs (stored ++ new))

theorem insertByTs_of_le (r : Row ν) (l : List (Row ν))
    (h : ∀ y ∈ l, r.timestamp ≤ y.timestamp) : insertByTs r l = r :: l := by
  cases l with
  | nil => rfl
  | cons x xs =>
    simp only [insertByTs]
    rw [if_neg]
    have := h x (by simp)
    omega

theorem sortByTs_eq_self (l : List (Row ν)) (h : SortedTs l) : sortByTs l = l := by
  induction l with
  | nil => rfl
  | cons x xs ih =>
    simp only [SortedTs, List.pairwise_cons] at h
    rw [sortByTs_cons, ih h.2]
    exact insertByTs_of_le x xs h.1

theorem tsList_append (l r : List (Row ν)) :
    tsList (l ++ r) = tsList l ++ tsList r := by
  simp [tsList]

/-- C5. Appending the same batch of rows twice yields the same dataset as
appending it once: the second append finds every timestamp already
present, the keep-first deduplication discards all of the re-appended
rows, and re-sorting the already sorted table is the identity. -/
theorem appendRows_idempotent (ν : Type) (stored rows : List (Row ν)) :
    appendRows (appendRows stored rows) rows = appendRows stored rows := by
  have hDperm : (appendRows stored rows).Perm (dedupTs (stored ++ rows)) :=
    sortByTs_perm _
  have h1 : (dedupTs (stored ++ rows)).Pairwise
      (fun a b => a.timestamp ≠ b.timestamp) := dedupTsAux_pairwise_ne [] _
  have h2 : (List.map (fun r : Row ν => r.timestamp) (dedupTs (stored ++ rows))).Nodup :=
    List.pairwise_map.mpr h1
  have hnodup : (tsList (appendRows stored rows)).Nodup := by
    simp only [tsList]
    exact ((List.Perm.map (fun r => r.timestamp) hDperm).nodup_iff).mpr h2
  have hsub : ∀ x ∈ rows,
      x.timestamp ∈ tsList (appendRows stored rows) ∨ x.timestamp ∈ ([] : List Int) := by
    intro x hx
    left
    have hm1 : x.timestamp ∈ tsList (stored ++ rows) := by
      rw [tsList_append]
      exact List.mem_append_right _ (List.mem_map.mpr ⟨x, hx, rfl⟩)
    have hm2 : x.timestamp ∈ tsList (dedupTs (stored ++ rows)) :=
      (tsList_dedupTsAux [] _ _).mpr ⟨by simp, hm1⟩
    simp only [tsList] at hm2 ⊢
    exact (List.Perm.map (fun r => r.timestamp) hDperm).mem_iff.mpr hm2
  have h4 : dedupTs (appendRows stored rows ++ rows) = dedupTs (appendRows stored rows) :=
    dedupTsAux_append_subsumed [] _ rows (by simpa using hsub)
  have h5 : dedupTs (appendRows stored rows) = appendRows stored rows :=
    dedupTsAux_eq_self [] _ hnodup (by simp)
  have h6 : SortedTs (appendRows stored rows) := sortByTs_sorted _
  calc appendRows (appendRows stored rows) rows
      = sortByTs (dedupTs (appendRows stored rows ++ rows)) := rfl
    _ = sortByTs (dedupTs (appendRows stored rows)) := by rw [h4]
    _ = sortByTs (appendRows stored rows) := by rw [h5]
    _ = appendRows stored rows := sortByTs_eq_self _ h6

/-- Errors of `ByBitDataManager.get` (src/bybit_daily.py lines 223-249):
a missing base file, or an empty filter result (`ValueError`, the
spec's `EmptyRangeError`). -/
inductive GetError where
  | fileNotFound
  | emptyRange
deriving Repr, DecidableEq

/-- `ByBitDataManager.get` on an existing base file (src/bybit_daily.py
lines 232-245): filter the persisted table to `start_ts <= timestamp <=
end_ts`, fail with the empty-range error if nothing matches, otherwise
export the filtered rows to a separate file. The first component is the
persisted table after the call: `get` never writes the base file, so it
is returned unchanged. -/
def getRange (stored : List (Row ν)) (startTs endTs : Int) :
    List (Row ν) × Except GetError (List (Row ν)) :=
  if (stored.filter fun r => startTs ≤ r.timestamp && r.timestamp ≤ endTs).isEmpty then
    (stored, Except.error GetError.emptyRange)
  else
    (stored, Except.ok (stored.filter fun r => startTs ≤ r.timestamp && r.timestamp ≤ endTs))

/-- C6. On a sorted persisted dataset, the range query leaves the dataset
unchanged, fails with the empty-range error exactly when no row lies in
the inclusive bounds, and otherwise returns a nonempty ascending-sorted
selection containing precisely the rows with `start <= t <= end` (an
in-order sub-sequence of the store). -/
theorem getRange_spec (ν : Type) (stored : List (Row ν)) (s e : Int)
    (hs : SortedTs stored) :
    (getRange stored s e).1 = stored
    ∧ ((getRange stored s e).2 = Except.error GetError.emptyRange
        ↔ ∀ r ∈ stored, ¬(s ≤ r.timestamp ∧ r.timestamp ≤ e))
    ∧ (∀ rows, (getRange stored s e).2 = Except.ok rows →
        SortedTs rows ∧ rows ≠ [] ∧ rows.Sublist stored
        ∧ (∀ r, r ∈ rows ↔ r ∈ stored ∧ s ≤ r.timestamp ∧ r.timestamp ≤ e)) := by
  by_cases hemp :
      (stored.filter fun r => s ≤ r.timestamp && r.timestamp ≤ e).isEmpty
  · have hgr : getRange stored s e = (stored, Except.error GetError.emptyRange) := by
      unfold getRange
      rw [if_pos hemp]
    have hnil := List.isEmpty_iff.mp hemp
    rw [List.filter_eq_nil_iff] at hnil
    refine ⟨by rw [hgr], ?_, ?_⟩
    · rw [hgr]
      constructor
      · intro _ r hr hb
        have hn := hnil r hr
        simp only [Bool.and_eq_true, decide_eq_true_eq] at hn
        exact hn hb
      · intro _
        rfl
    · intro rows hrow
      rw [hgr] at hrow
      cases hrow
  · have hgr : getRange stored s e
        = (stored, Except.ok
            (stored.filter fun r => s ≤ r.timestamp && r.timestamp ≤ e)) := by
      unfold getRange
      rw [if_neg hemp]
    refine ⟨by rw [hgr], ?_, ?_⟩
    · rw [hgr]
      constructor
      · intro h
        cases h
      · intro hall
        exfalso
        apply hemp
        rw [List.isEmpty_iff, List.filter_eq_nil_iff]
        intro r hr
        have hh := hall r hr
        simp only [Bool.and_eq_true, decide_eq_true_eq]
        omega
    · intro rows hrow
      rw [hgr] at hrow
      simp only [Except.ok.injEq] at hrow
      subst hrow
      refine ⟨List.Pairwise.sublist (List.filter_sublist _) hs, ?_,
        List.filter_sublist _, ?_⟩
      · intro hc
        rw [hc] at hemp
        simp at hemp
      · intro r
        rw [List.mem_filter]
        simp only [Bool.and_eq_true, decide_eq_true_eq]

/-- Concrete witness for C6: the dataset `[(1,·),(2,·)]` is sorted and is
returned unchanged by a range query. -/
theorem getRange_spec_witness :
    SortedTs [Row.mk 1 (0 : Int), Row.mk 2 0]
    ∧ (getRange [Row.mk 1 (0 : Int), Row.mk 2 0] 2 3).1
        = [Row.mk 1 (0 : Int), Row.mk 2 0] :=
  ⟨by decide, (getRange_spec Int [Row.mk 1 0, Row.mk 2 0] 2 3 (by decide)).1⟩

/-- Outcome of one HTTP request as seen by the caller in
src/bybit_daily.py: either a decoded JSON body, or a raised
requests/timeout exception. -/
inductive ApiOutcome (α : Type) where
  | success : α → ApiOutcome α
  | transportError : ApiOutcome α
deriving Repr, DecidableEq

/-- Envelope of the kline endpoint as read by `_probe_timestamp`:
`retCode`, `retMsg`, and `result.list` (each kline is a list of string
fields; only its presence matters to the probe). -/
structure KlineResponse where
  retCode : Int
  retMsg : String
  resultList : List (List String)
deriving Repr, DecidableEq

/-- `ByBitDataManager._probe_timestamp` (src/bybit_daily.py lines 50-72):
the whole body sits in a `try` whose handler `except Exception: return
False` catches transport errors AND the exception raised for a non-zero
`retCode`; the function is therefore total and returns a plain Bool:
`True` exactly on a successful response with `retCode == 0` and a
nonempty `result.list`. -/
def probe_timestamp (resp : ApiOutcome KlineResponse) : Bool :=
  match resp with
  | ApiOutcome.transportError => false
  | ApiOutcome.success d =>
    if d.retCode ≠ 0 then false
    else decide (d.resultList.length > 0)

/-- Counterexample to C2 as stated: a probe hit by a transport error does
NOT propagate the error — it returns `False`, the very same value as a
successful probe that finds zero records, so the search cannot
distinguish the two. -/
theorem probe_timestamp_counterexample :
    probe_timestamp ApiOutcome.transportError = false
    ∧ probe_timestamp (ApiOutcome.success (KlineResponse.mk 0 "" [])) = false := by
  decide

/-- C2 (amended). Every probe failure — transport error or upstream
`retCode != 0` — is caught inside `_probe_timestamp` and collapsed to
`False`, indistinguishable from a successful probe finding no data: the
probe returns `True` only for a successful response with `retCode == 0`
and at least one record, and errors never reach the earliest-history
search. -/
theorem probe_timestamp_spec (resp : ApiOutcome KlineResponse) :
    probe_timestamp resp = true
      ↔ ∃ d, resp = ApiOutcome.success d ∧ d.retCode = 0 ∧ d.resultList ≠ [] := by
  cases resp with
  | transportError => simp [probe_timestamp]
  | success d =>
    by_cases hc : d.retCode = 0
    · constructor
      · intro h
        refine ⟨d, rfl, hc, ?_⟩
        simp [probe_timestamp, hc] at h
        exact List.ne_nil_of_length_pos h
      · rintro ⟨d2, hd2, _, hlen⟩
        cases hd2
        simp [probe_timestamp, hc]
        exact List.length_pos.mpr hlen
    · constructor
      · intro h
        simp [probe_timestamp, hc] at h
      · rintro ⟨d2, hd2, hcode, _⟩
        cases hd2
        exact absurd hcode hc

/-- Concrete witness for C2 (amended): a successful one-record response
probes `True`. -/
theorem probe_timestamp_spec_witness :
    probe_timestamp (ApiOutcome.success (KlineResponse.mk 0 "" [["k"]])) = true :=
  (probe_timestamp_spec (ApiOutcome.success (KlineResponse.mk 0 "" [["k"]]))).mpr
    ⟨KlineResponse.mk 0 "" [["k"]], rfl, rfl, by decide⟩

/-- Errors aborting a synchronization attempt of `ByBitDataManager.fetch`
(src/bybit_daily.py lines 176-221): a transport failure or an upstream
API error raised by `_fetch_data`. -/
inductive FetchError where
  | transport
  | api (msg : String)
deriving Repr, DecidableEq

/-- The merge-and-write step of one loop iteration of `fetch`
(src/bybit_daily.py lines 202-210): if a base file exists, concatenate,
deduplicate by timestamp and sort; if not, the fetched chunk itself
becomes the first persisted table (`none` models a missing base file). -/
def mergeChunk (stored : Option (List (Row ν))) (df : List (Row ν)) : List (Row ν) :=
  match stored with
  | some existing => appendRows existing df
  | none => df

/-- The chunk loop of `ByBitDataManager.fetch` (src/bybit_daily.py lines
193-217). Each list element is the outcome of one `_fetch_data` call (a
chunk of up to 1000 daily candles, or a raised error). A non-empty chunk
is merged into the persisted file IMMEDIATELY; an empty chunk is skipped;
an error aborts the loop. Returns the persisted state after the attempt
together with the error that stopped it, if any. -/
def fetchLoop (stored : Option (List (Row ν))) :
    List (Except FetchError (List (Row ν))) → Option (List (Row ν)) × Option FetchError
  | [] => (stored, none)
  | Except.error e :: _ => (stored, some e)
  | Except.ok df :: rest =>
    if df.isEmpty then fetchLoop stored rest
    else fetchLoop (some (mergeChunk stored df)) rest

/-- Effect of one successfully fetched chunk on the persisted state. -/
def chunkStep (st : Option (List (Row ν))) (df : List (Row ν)) : Option (List (Row ν)) :=
  if df.isEmpty then st else some (mergeChunk st df)

/-- Counterexample to C3 as stated: starting from the empty persisted
dataset, a sweep whose first chunk succeeds with one candle and whose
second chunk fails leaves that first chunk persisted — the attempt failed
before the full sweep completed, yet the dataset is no longer what it was
before the attempt. -/
theorem fetchLoop_counterexample :
    fetchLoop (some ([] : List (Row Int)))
        [Except.ok [Row.mk 1 0], Except.error FetchError.transport]
      = (some [Row.mk 1 0], some FetchError.transport)
    ∧ some [Row.mk (1 : Int) (0 : Int)] ≠ some ([] : List (Row Int)) := by
  constructor
  · rfl
  · decide

/-- C3 (amended). Persistence is per chunk, not per attempt: after the
chunks `good` all succeed, every non-empty one of them is already merged
into the store; if the next fetch fails, the attempt stops with exactly
those chunks persisted (later chunks are never fetched), and if no fetch
fails the attempt ends with the same folded store and no error. -/
theorem fetchLoop_spec (ν : Type) (stored : Option (List (Row ν)))
    (good : List (List (Row ν))) :
    (∀ e rest, fetchLoop stored (good.map Except.ok ++ Except.error e :: rest)
        = (good.foldl chunkStep stored, some e))
    ∧ fetchLoop stored (good.map Except.ok) = (good.foldl chunkStep stored, none) := by
  induction good generalizing stored with
  | nil => exact ⟨fun e rest => rfl, rfl⟩
  | cons df rest ih =>
    constructor
    · intro e tail
      simp only [List.map_cons, List.cons_append, List.foldl_cons]
      by_cases hdf : df.isEmpty
      · rw [show fetchLoop stored (Except.ok df :: (List.map Except.ok rest
            ++ Except.error e :: tail)) = fetchLoop stored (List.map Except.ok rest
            ++ Except.error e :: tail) by simp [fetchLoop, hdf]]
        rw [show chunkStep stored df = stored by simp [chunkStep, hdf]]
        exact (ih stored).1 e tail
      · rw [show fetchLoop stored (Except.ok df :: (List.map Except.ok rest
            ++ Except.error e :: tail)) = fetchLoop (some (mergeChunk stored df))
            (List.map Except.ok rest ++ Except.error e :: tail) by simp [fetchLoop, hdf]]
        rw [show chunkStep stored df = some (mergeChunk stored df) by
          simp [chunkStep, hdf]]
        exact (ih (some (mergeChunk stored df))).1 e tail
    · simp only [List.map_cons, List.foldl_cons]
      by_cases hdf : df.isEmpty
      · rw [show fetchLoop stored (Except.ok df :: List.map Except.ok rest)
            = fetchLoop stored (List.map Except.ok rest) by simp [fetchLoop, hdf]]
        rw [show chunkStep stored df = stored by simp [chunkStep, hdf]]
        exact (ih stored).2
      · rw [show fetchLoop stored (Except.ok df :: List.map Except.ok rest)
            = fetchLoop (some (mergeChunk stored df)) (List.map Except.ok rest) by
          simp [fetchLoop, hdf]]
        rw [show chunkStep stored df = some (mergeChunk stored df) by
          simp [chunkStep, hdf]]
        exact (ih (some (mergeChunk stored df))).2

/-- A raw open-interest record as delivered in `result.list` of the
open-interest endpoint: the fields used by the script are `timestamp`
(coerced with `astype(int)`) and `openInterest` (coerced with
`astype(float)`, kept generic here). -/
structure RawOpenInterest (ν : Type) where
  timestamp : Int
  openInterest : ν
deriving Repr, DecidableEq

/-- A raw funding-rate record: `fundingRateTimestamp` (coerced to int)
and `fundingRate` (coerced to float, kept generic). -/
structure RawFunding (ν : Type) where
  fundingRateTimestamp : Int
  fundingRate : ν
deriving Repr, DecidableEq

/-- Result of a download: the column list of the returned frame, its
rows, and whether an output CSV file was written. -/
structure DownloadResult (ν : Type) where
  columns : List String
  rows : List (Row ν)
  wroteFile : Bool
deriving Repr, DecidableEq

/-- `BybitFuturesDataDownloader.download_open_interest`
(src/fund_interest.py lines 48-135) after the pagination loop: if no
record was accumulated, return an empty frame with the canonical columns
WITHOUT writing a file (lines 110-112); otherwise select/coerce the two
columns, sort, deduplicate, write the CSV and return the frame. -/
def download_open_interest (f : Nat → Page (RawOpenInterest ν)) (fuel : Nat) :
    Option (DownloadResult ν) :=
  match paginate f fuel 0 none [] with
  | none => none
  | some allData =>
    if allData.isEmpty then
      some (DownloadResult.mk ["timestamp", "open_interest"] [] false)
    else
      some (DownloadResult.mk ["timestamp", "open_interest"]
        (normalizeSeries (allData.map fun r => Row.mk r.timestamp r.openInterest)) true)

/-- `BybitFuturesDataDownloader.download_funding_rate`
(src/fund_interest.py lines 137-221), same shape: empty accumulation
returns an empty `['timestamp', 'funding_rate']` frame with no file
written (lines 196-198). -/
def download_funding_rate (f : Nat → Page (RawFunding ν)) (fuel : Nat) :
    Option (DownloadResult ν) :=
  match paginate f fuel 0 none [] with
  | none => none
  | some allData =>
    if allData.isEmpty then
      some (DownloadResult.mk ["timestamp", "funding_rate"] [] false)
    else
      some (DownloadResult.mk ["timestamp", "funding_rate"]
        (normalizeSeries (allData.map fun r => Row.mk r.fundingRateTimestamp r.fundingRate)) true)

/-- C10. If the very first page carries no records, both download
operations return (no error, within one round) an empty table whose
columns are exactly their canonical pair, and write no output file. -/
theorem download_empty_first_page (ν : Type)
    (f : Nat → Page (RawOpenInterest ν)) (g : Nat → Page (RawFunding ν)) (fuel : Nat)
    (hfuel : 1 ≤ fuel) (hf : (f 0).records = []) (hg : (g 0).records = []) :
    download_open_interest f fuel
      = some (DownloadResult.mk ["timestamp", "open_interest"] [] false)
    ∧ download_funding_rate g fuel
      = some (DownloadResult.mk ["timestamp", "funding_rate"] [] false) := by
  obtain ⟨m, rfl⟩ : ∃ m, fuel = m + 1 := ⟨fuel - 1, by omega⟩
  have hpf : paginate f (m + 1) 0 none [] = some [] := by
    simp [paginate, hf]
  have hpg : paginate g (m + 1) 0 none [] = some [] := by
    simp [paginate, hg]
  constructor
  · rw [download_open_interest, hpf]
    rfl
  · rw [download_funding_rate, hpg]
    rfl

/-- Concrete witness for C10: a fetcher whose first page is empty. -/
theorem download_empty_first_page_witness :
    (1 : Nat) ≤ 1
    ∧ download_open_interest
        (fun _ => Page.mk ([] : List (RawOpenInterest Int)) "") 1
        = some (DownloadResult.mk ["timestamp", "open_interest"] [] false) :=
  ⟨Nat.le_refl 1,
   (download_empty_first_page Int (fun _ => Page.mk [] "") (fun _ => Page.mk [] "") 1
      (Nat.le_refl 1) rfl rfl).1⟩

/-- Four hours in milliseconds, the fixed resample period of
`FearGreedDownloader._resample_to_4h`. -/
def fourHoursMs : Int := 14400000

/-- `pandas.Timestamp.floor('4H')`: round down to a multiple of four
hours from the epoch (integer euclidean division floors). -/
def floor4h (t : Int) : Int := (t / fourHoursMs) * fourHoursMs

/-- `pandas.Timestamp.ceil('4H')`: round up to a multiple of four hours
from the epoch. -/
def ceil4h (t : Int) : Int := ((t + fourHoursMs - 1) / fourHoursMs) * fourHoursMs

/-- `df.index.min()` of the datetime index (the smallest timestamp),
`none` on an empty frame. -/
def minTs : List (Row ν) → Option Int
  | [] => none
  | r :: rs => some (rs.foldl (fun a x => min a x.timestamp) r.timestamp)

/-- `df.index.max()`, `none` on an empty frame. -/
def maxTs : List (Row ν) → Option Int
  | [] => none
  | r :: rs => some (rs.foldl (fun a x => max a x.timestamp) r.timestamp)

/-- The value `reindex(grid, method='ffill')` assigns to grid point `g`:
the value at the greatest index at or before `g` (for a monotonic index,
the last row of the filtered prefix), `NaN`/`none` when every index lies
after `g`. -/
def ffillAt (rows : List (Row ν)) (g : Int) : Option ν :=
  ((rows.filter fun r => r.timestamp ≤ g).getLast?).map fun r => r.value

/-- `FearGreedDownloader._resample_to_4h` (src/fear_greed_index.py lines
37-62): build the 4-hour grid from the minimum timestamp floored to the
grid up to the maximum timestamp ceiled to the grid (both endpoints
included by `pd.date_range`), and forward-fill each grid point from the
daily rows. The value column is `Option`-valued because grid points that
precede the first row get `NaN`. -/
def resample_to_4h (rows : List (Row ν)) : List (Int × Option ν) :=
  match minTs rows, maxTs rows with
  | some lo, some hi =>
    (List.range (((ceil4h hi - floor4h lo) / fourHoursMs).toNat + 1)).map
      fun i : Nat => (floor4h lo + (i : Int) * fourHoursMs,
        ffillAt rows (floor4h lo + (i : Int) * fourHoursMs))
  | _, _ => []

theorem foldl_min_le_init (rs : List (Row ν)) (b : Int) :
    rs.foldl (fun a x => min a x.timestamp) b ≤ b := by
  induction rs generalizing b with
  | nil => simp
  | cons x xs ih =>
    simp only [List.foldl_cons]
    exact le_trans (ih _) (min_le_left _ _)

theorem init_le_foldl_max (rs : List (Row ν)) (b : Int) :
    b ≤ rs.foldl (fun a x => max a x.timestamp) b := by
  induction rs generalizing b with
  | nil => simp
  | cons x xs ih =>
    simp only [List.foldl_cons]
    exact le_trans (le_max_left _ _) (ih _)

theorem minTs_le_maxTs (rows : List (Row ν)) (lo hi : Int)
    (hlo : minTs rows = some lo) (hhi : maxTs rows = some hi) : lo ≤ hi := by
  cases rows with
  | nil => cases hlo
  | cons r rs =>
    simp only [minTs, Option.some.injEq] at hlo
    simp only [maxTs, Option.some.injEq] at hhi
    calc lo = rs.foldl (fun a x => min a x.timestamp) r.timestamp := hlo.symm
      _ ≤ r.timestamp := foldl_min_le_init rs _
      _ ≤ rs.foldl (fun a x => max a x.timestamp) r.timestamp := init_le_foldl_max rs _
      _ = hi := hhi

theorem floor4h_le (t : Int) : floor4h t ≤ t := by
  have h1 := Int.ediv_add_emod t 14400000
  have h2 := Int.emod_nonneg t (show (14400000 : Int) ≠ 0 by decide)
  simp only [floor4h, fourHoursMs]
  omega

theorem le_ceil4h (t : Int) : t ≤ ceil4h t := by
  have h1 := Int.ediv_add_emod (t + 14400000 - 1) 14400000
  have h2 := Int.emod_lt_of_pos (t + 14400000 - 1)
    (show (0 : Int) < 14400000 by decide)
  simp only [ceil4h, fourHoursMs]
  omega

theorem dvd_floor4h (t : Int) : fourHoursMs ∣ floor4h t :=
  Dvd.intro_left _ rfl

theorem dvd_ceil4h (t : Int) : fourHoursMs ∣ ceil4h t :=
  Dvd.intro_left _ rfl

/-- Membership in the arithmetic grid from `start` to `stop` (both
multiples of the period): exactly the multiples of the period within the
bounds. -/
theorem grid_mem_iff (start stop g : Int)
    (hs : fourHoursMs ∣ start) (ht : fourHoursMs ∣ stop) (hle : start ≤ stop) :
    (∃ i : Nat, i ≤ ((stop - start) / fourHoursMs).toNat
        ∧ g = start + (i : Int) * fourHoursMs)
      ↔ (fourHoursMs ∣ g ∧ start ≤ g ∧ g ≤ stop) := by
  obtain ⟨a, rfl⟩ := hs
  obtain ⟨b, rfl⟩ := ht
  have hP : (0 : Int) < fourHoursMs := by decide
  have hab : a ≤ b := le_of_mul_le_mul_left hle hP
  have hdiv : (fourHoursMs * b - fourHoursMs * a) / fourHoursMs = b - a := by
    rw [show fourHoursMs * b - fourHoursMs * a = fourHoursMs * (b - a) by ring]
    exact Int.mul_ediv_cancel_left _ (by decide)
  rw [hdiv]
  constructor
  · rintro ⟨i, hi, rfl⟩
    refine ⟨⟨a + i, by ring⟩, by nlinarith, ?_⟩
    have hic : (i : Int) ≤ b - a := by
      have := Int.toNat_of_nonneg (show (0 : Int) ≤ b - a by omega)
      omega
    nlinarith
  · rintro ⟨⟨c, rfl⟩, hg1, hg2⟩
    have hac : a ≤ c := le_of_mul_le_mul_left hg1 hP
    have hcb : c ≤ b := le_of_mul_le_mul_left hg2 hP
    refine ⟨(c - a).toNat, ?_, ?_⟩
    · have h1 := Int.toNat_of_nonneg (show (0 : Int) ≤ c - a by omega)
      have h2 := Int.toNat_of_nonneg (show (0 : Int) ≤ b - a by omega)
      omega
    · have h1 := Int.toNat_of_nonneg (show (0 : Int) ≤ c - a by omega)
      nlinarith [h1]

theorem getLast?_cons_ne (x : α) (l : List α) (hl : l ≠ []) :
    (x :: l).getLast? = l.getLast? := by
  rw [show x :: l = [x] ++ l by rfl, List.getLast?_append]
  cases hg : l.getLast? with
  | none => exact absurd (List.getLast?_eq_none_iff.mp hg) hl
  | some y => rfl

/-- On a strictly sorted series, the last row surviving the `≤ g` filter
is exactly the row with the greatest timestamp not exceeding `g`. -/
theorem getLast?_filter_le (rows : List (Row ν)) (g : Int)
    (hs : StrictSortedTs rows) (r : Row ν) :
    (rows.filter fun x => x.timestamp ≤ g).getLast? = some r
      ↔ (r ∈ rows ∧ r.timestamp ≤ g
          ∧ ∀ q ∈ rows, q.timestamp ≤ g → q.timestamp ≤ r.timestamp) := by
  induction rows with
  | nil => simp
  | cons x xs ih =>
    simp only [StrictSortedTs, List.pairwise_cons] at hs
    obtain ⟨hx, hxs⟩ := hs
    have ihx := ih hxs
    by_cases hxg : x.timestamp ≤ g
    · rw [show List.filter (fun y => decide (y.timestamp ≤ g)) (x :: xs)
          = x :: List.filter (fun y => decide (y.timestamp ≤ g)) xs by
        simp [List.filter_cons, hxg]]
      by_cases hfe : List.filter (fun y => decide (y.timestamp ≤ g)) xs = []
      · rw [hfe]
        have hnone : ∀ q ∈ xs, ¬(q.timestamp ≤ g) := by
          intro q hq
          have := List.filter_eq_nil_iff.mp hfe q hq
          simpa using this
        constructor
        · intro h
          simp only [List.getLast?_singleton, Option.some.injEq] at h
          subst h
          refine ⟨by simp, hxg, ?_⟩
          intro q hq hqg
          rcases List.mem_cons.mp hq with h | h
          · subst h; exact le_refl _
          · exact absurd hqg (hnone q h)
        · rintro ⟨hmem, hrg, _⟩
          rcases List.mem_cons.mp hmem with h | h
          · subst h; rfl
          · exact absurd hrg (hnone r h)
      · rw [getLast?_cons_ne _ _ hfe, ihx]
        have hex : ∃ y ∈ xs, y.timestamp ≤ g := by
          rcases List.exists_mem_of_ne_nil _ hfe with ⟨y, hy⟩
          have := List.mem_filter.mp hy
          exact ⟨y, this.1, by simpa using this.2⟩
        constructor
        · rintro ⟨hmem, hrg, hmax⟩
          refine ⟨List.mem_cons_of_mem _ hmem, hrg, ?_⟩
          intro q hq hqg
          rcases List.mem_cons.mp hq with h | h
          · subst h; exact le_of_lt (hx r hmem)
          · exact hmax q h hqg
        · rintro ⟨hmem, hrg, hmax⟩
          rcases List.mem_cons.mp hmem with h | h
          · exfalso
            subst h
            obtain ⟨y, hy, hyg⟩ := hex
            have hm1 := hmax y (List.mem_cons_of_mem _ hy) hyg
            have hm2 := hx y hy
            omega
          · exact ⟨h, hrg, fun q hq hqg => hmax q (List.mem_cons_of_mem _ hq) hqg⟩
    · rw [show List.filter (fun y => decide (y.timestamp ≤ g)) (x :: xs)
          = List.filter (fun y => decide (y.timestamp ≤ g)) xs by
        simp [List.filter_cons, hxg]]
      rw [ihx]
      constructor
      · rintro ⟨hmem, hrg, hmax⟩
        exact ⟨List.mem_cons_of_mem _ hmem, hrg,
          fun q hq hqg => by
            rcases List.mem_cons.mp hq with h | h
            · subst h; exact absurd hqg hxg
            · exact hmax q h hqg⟩
      · rintro ⟨hmem, hrg, hmax⟩
        rcases List.mem_cons.mp hmem with h | h
        · subst h; exact absurd hrg hxg
        · exact ⟨h, hrg, fun q hq hqg => hmax q (List.mem_cons_of_mem _ hq) hqg⟩

/-- C7. Resampling a non-empty strictly-sorted daily series to the 4-hour
grid yields rows at exactly the 4-hour boundaries from the first
timestamp floored to the grid up to the last timestamp ceiled to it (one
row per boundary, strictly increasing); each row carries the value of the
most recent daily row at or before its boundary (forward-fill), is empty
exactly when no daily row lies at or before the boundary, and invents no
other values. -/
theorem resample_to_4h_spec (ν : Type) (rows : List (Row ν)) (lo hi : Int)
    (hsorted : StrictSortedTs rows)
    (hlo : minTs rows = some lo) (hhi : maxTs rows = some hi) :
    (∀ g : Int, (∃ v, (g, v) ∈ resample_to_4h rows)
        ↔ (fourHoursMs ∣ g ∧ floor4h lo ≤ g ∧ g ≤ ceil4h hi))
    ∧ (resample_to_4h rows).Pairwise (fun a b => a.1 < b.1)
    ∧ (∀ g v, (g, v) ∈ resample_to_4h rows →
        (v = none ↔ ∀ r ∈ rows, ¬(r.timestamp ≤ g))
        ∧ (∀ x, v = some x ↔ ∃ r, r ∈ rows ∧ r.timestamp ≤ g ∧ r.value = x
            ∧ ∀ q ∈ rows, q.timestamp ≤ g → q.timestamp ≤ r.timestamp)) := by
  have hres : resample_to_4h rows
      = (List.range (((ceil4h hi - floor4h lo) / fourHoursMs).toNat + 1)).map
          (fun i : Nat => (floor4h lo + (i : Int) * fourHoursMs,
            ffillAt rows (floor4h lo + (i : Int) * fourHoursMs))) := by
    unfold resample_to_4h
    rw [hlo, hhi]
  have hstartstop : floor4h lo ≤ ceil4h hi :=
    le_trans (floor4h_le lo)
      (le_trans (minTs_le_maxTs rows lo hi hlo hhi) (le_ceil4h hi))
  have hmem : ∀ g v, (g, v) ∈ resample_to_4h rows
      ↔ ∃ i : Nat, i ≤ ((ceil4h hi - floor4h lo) / fourHoursMs).toNat
          ∧ g = floor4h lo + (i : Int) * fourHoursMs
          ∧ v = ffillAt rows g := by
    intro g v
    rw [hres, List.mem_map]
    constructor
    · rintro ⟨i, hir, heq⟩
      rw [List.mem_range] at hir
      have h1 := congrArg Prod.fst heq
      have h2 := congrArg Prod.snd heq
      simp only at h1 h2
      exact ⟨i, by omega, h1.symm, by rw [← h1]; exact h2.symm⟩
    · rintro ⟨i, hir, rfl, rfl⟩
      exact ⟨i, List.mem_range.mpr (by omega), rfl⟩
  refine ⟨?_, ?_, ?_⟩
  · intro g
    rw [show (∃ v, (g, v) ∈ resample_to_4h rows)
        ↔ ∃ i : Nat, i ≤ ((ceil4h hi - floor4h lo) / fourHoursMs).toNat
            ∧ g = floor4h lo + (i : Int) * fourHoursMs by
      constructor
      · rintro ⟨v, hv⟩
        obtain ⟨i, h1, h2, _⟩ := (hmem g v).mp hv
        exact ⟨i, h1, h2⟩
      · rintro ⟨i, h1, h2⟩
        exact ⟨ffillAt rows g, (hmem g _).mpr ⟨i, h1, h2, rfl⟩⟩]
    exact grid_mem_iff (floor4h lo) (ceil4h hi) g (dvd_floor4h lo) (dvd_ceil4h hi)
      hstartstop
  · rw [hres]
    refine List.pairwise_map.mpr ?_
    refine (List.pairwise_lt_range _).imp ?_
    intro i j hij
    simp only [fourHoursMs]
    omega
  · intro g v hv
    obtain ⟨i, _, _, hvf⟩ := (hmem g v).mp hv
    subst hvf
    constructor
    · rw [ffillAt, Option.map_eq_none', List.getLast?_eq_none_iff,
        List.filter_eq_nil_iff]
      constructor
      · intro h r hr
        simpa using h r hr
      · intro h r hr
        simpa using h r hr
    · intro x
      rw [ffillAt, Option.map_eq_some']
      constructor
      · rintro ⟨r, hlast, hval⟩
        obtain ⟨h1, h2, h3⟩ := (getLast?_filter_le rows g hsorted r).mp hlast
        exact ⟨r, h1, h2, hval, h3⟩
      · rintro ⟨r, h1, h2, hval, h3⟩
        exact ⟨r, (getLast?_filter_le rows g hsorted r).mpr ⟨h1, h2, h3⟩, hval⟩

/-- Concrete witness for C7: the two-day series `[(day0, 5), (day1, 7)]`
(day 0 = epoch) is strictly sorted with `min = 0`, `max = 86400000`, and
the boundary `28800000` (08:00 of day 0) is on the produced grid. -/
theorem resample_to_4h_spec_witness :
    StrictSortedTs [Row.mk 0 (5 : Int), Row.mk 86400000 7]
    ∧ minTs [Row.mk 0 (5 : Int), Row.mk 86400000 7] = some 0
    ∧ maxTs [Row.mk 0 (5 : Int), Row.mk 86400000 7] = some 86400000
    ∧ (fourHoursMs ∣ (28800000 : Int) ∧ floor4h 0 ≤ 28800000
        ∧ (28800000 : Int) ≤ ceil4h 86400000) := by
  refine ⟨by decide, by decide, by decide, ?_⟩
  exact (resample_to_4h_spec Int [Row.mk 0 5, Row.mk 86400000 7] 0 86400000
    (by decide) (by decide) (by decide)).1 28800000 |>.mp
    ⟨ffillAt [Row.mk 0 5, Row.mk 86400000 7] 28800000, by decide⟩

/-- Numeric value of a digit character. -/
def digitVal (c : Char) : Nat := c.toNat - 48

/-- Value of a digit string read left to right. -/
def natOfDigits (cs : List Char) : Nat :=
  cs.foldl (fun a c => 10 * a + digitVal c) 0

/-- CPython group regex for `%d`: `3[01] | [12]\d | 0[1-9]` (two-digit
alternatives; the one-digit `[1-9]` alternative is `parseDay1`).
Alternatives are tried in this order, as in the `re` module. -/
def parseDay2 : List Char → Option (Nat × List Char)
  | c1 :: c2 :: rest =>
    if c1 == '3' && (c2 == '0' || c2 == '1') then some (30 + digitVal c2, rest)
    else if (c1 == '1' || c1 == '2') && c2.isDigit then
      some (10 * digitVal c1 + digitVal c2, rest)
    else if c1 == '0' && (c2.isDigit && c2 != '0') then some (digitVal c2, rest)
    else none
  | _ => none

/-- One-digit day alternative `[1-9]`. -/
def parseDay1 : List Char → Option (Nat × List Char)
  | c :: rest => if c.isDigit && c != '0' then some (digitVal c, rest) else none
  | _ => none

/-- CPython group regex for `%m`, two-digit alternatives
`1[0-2] | 0[1-9]`. -/
def parseMonth2 : List Char → Option (Nat × List Char)
  | c1 :: c2 :: rest =>
    if c1 == '1' && (c2 == '0' || c2 == '1' || c2 == '2') then
      some (10 + digitVal c2, rest)
    else if c1 == '0' && (c2.isDigit && c2 != '0') then some (digitVal c2, rest)
    else none
  | _ => none

/-- One-digit month alternative `[1-9]`. -/
def parseMonth1 : List Char → Option (Nat × List Char)
  | c :: rest => if c.isDigit && c != '0' then some (digitVal c, rest) else none
  | _ => none

/-- CPython group regex for `%Y`: exactly four digits. -/
def parseYear4 : List Char → Option (Nat × List Char)
  | c1 :: c2 :: c3 :: c4 :: rest =>
    if c1.isDigit && c2.isDigit && c3.isDigit && c4.isDigit then
      some (1000 * digitVal c1 + 100 * digitVal c2 + 10 * digitVal c3 + digitVal c4,
        rest)
    else none
  | _ => none

/-- CPython group regex for `%H`, two-digit alternatives
`2[0-3] | [0-1]\d`. -/
def parseHour2 : List Char → Option (Nat × List Char)
  | c1 :: c2 :: rest =>
    if c1 == '2' && (c2 == '0' || c2 == '1' || c2 == '2' || c2 == '3') then
      some (20 + digitVal c2, rest)
    else if (c1 == '0' || c1 == '1') && c2.isDigit then
      some (10 * digitVal c1 + digitVal c2, rest)
    else none
  | _ => none

/-- One-digit hour alternative `\d`. -/
def parseHour1 : List Char → Option (Nat × List Char)
  | c :: rest => if c.isDigit then some (digitVal c, rest) else none
  | _ => none

/-- CPython group regex for `%M`, two-digit alternative `[0-5]\d`. -/
def parseMin2 : List Char → Option (Nat × List Char)
  | c1 :: c2 :: rest =>
    if (c1 == '0' || c1 == '1' || c1 == '2' || c1 == '3' || c1 == '4' || c1 == '5')
        && c2.isDigit then
      some (10 * digitVal c1 + digitVal c2, rest)
    else none
  | _ => none

/-- One-digit minute alternative `\d`. -/
def parseMin1 : List Char → Option (Nat × List Char)
  | c :: rest => if c.isDigit then some (digitVal c, rest) else none
  | _ => none

/-- Minutes at the end of the input: `strptime` requires the whole string
to be consumed, and the regex engine backtracks from the two-digit
alternative to the one-digit one if the end of input is not reached. -/
def parseMinuteEnd (cs : List Char) : Option Nat :=
  ((parseMin2 cs).bind fun p => if p.2.isEmpty then some p.1 else none)
  <|>
  ((parseMin1 cs).bind fun p => if p.2.isEmpty then some p.1 else none)

/-- Hour group followed by the minute group, with backtracking between
the hour alternatives. -/
def parseHM (cs : List Char) : Option (Nat × Nat) :=
  ((parseHour2 cs).bind fun p => (parseMinuteEnd p.2).map fun mm => (p.1, mm))
  <|>
  ((parseHour1 cs).bind fun p => (parseMinuteEnd p.2).map fun mm => (p.1, mm))

/-- Four-digit year, the literal colon of the format, then hour and
minute. -/
def parseColon : List Char → Option (List Char)
  | c :: rest => if c == ':' then some rest else none
  | _ => none

/-- Four-digit year, the literal colon of the format, then hour and
minute. -/
def parseYearColonHM (cs : List Char) : Option (Nat × Nat × Nat) :=
  (parseYear4 cs).bind fun p =>
    (parseColon p.2).bind fun rest2 =>
      (parseHM rest2).map fun q => (p.1, q.1, q.2)

/-- Month group (backtracking over its alternatives) followed by the rest
of the format. -/
def parseFromMonth (cs : List Char) : Option (Nat × Nat × Nat × Nat) :=
  ((parseMonth2 cs).bind fun p =>
    (parseYearColonHM p.2).map fun t => (p.1, t.1, t.2.1, t.2.2))
  <|>
  ((parseMonth1 cs).bind fun p =>
    (parseYearColonHM p.2).map fun t => (p.1, t.1, t.2.1, t.2.2))

/-- Full regex match of `strptime('%d%m%Y:%H%M')` with leftmost
alternation order and backtracking, returning
`(day, month, year, hour, minute)`. -/
def parseFields (cs : List Char) : Option (Nat × Nat × Nat × Nat × Nat) :=
  ((parseDay2 cs).bind fun p =>
    (parseFromMonth p.2).map fun t => (p.1, t.1, t.2.1, t.2.2.1, t.2.2.2))
  <|>
  ((parseDay1 cs).bind fun p =>
    (parseFromMonth p.2).map fun t => (p.1, t.1, t.2.1, t.2.2.1, t.2.2.2))

/-- Gregorian leap year. -/
def isLeapYear (y : Nat) : Bool :=
  (y % 4 == 0 && y % 100 != 0) || y % 400 == 0

/-- Length of a month, as enforced by `datetime.datetime`. -/
def daysInMonth (y m : Nat) : Nat :=
  if m == 2 then (if isLeapYear y then 29 else 28)
  else if m == 4 || m == 6 || m == 9 || m == 11 then 30
  else 31

/-- Days from 1970-01-01 to the given civil date (standard era-based
civil-calendar algorithm; valid for the years at hand). -/
def daysFromCivil (y m d : Nat) : Int :=
  let yAdj : Int := if m ≤ 2 then (y : Int) - 1 else (y : Int)
  let era : Int := yAdj / 400
  let yoe : Int := yAdj - era * 400
  let mp : Int := if 2 < m then (m : Int) - 3 else (m : Int) + 9
  let doy : Int := (153 * mp + 2) / 5 + (d : Int) - 1
  let doe : Int := yoe * 365 + yoe / 4 - yoe / 100 + doy
  era * 146097 + doe - 719468

/-- Millisecond epoch of a civil date-time. The source computes
`dt.timestamp()` in the process-local timezone; the embedding uses UTC, a
fixed offset that no claim depends on. -/
def epochMsOfDate (y m d hh mm : Nat) : Int :=
  daysFromCivil y m d * 86400000 + (hh : Int) * 3600000 + (mm : Int) * 60000

/-- `_parse_timestamp` (src/bybit_daily.py lines 24-31, duplicated in the
other two scripts): `datetime.strptime(text, '%d%m%Y:%H%M')` followed by
epoch conversion; `none` models the raised `ValueError` (the regex does
not match, or `datetime` rejects the day for the month). -/
def parse_timestamp (s : String) : Option Int :=
  match parseFields s.data with
  | none => none
  | some (d, m, y, hh, mm) =>
    if 1 ≤ y ∧ d ≤ daysInMonth y m then some (epochMsOfDate y m d hh mm)
    else none

/-- The fixed zero-padded pattern `DDMMYYYY:HHMM` named by the claim:
two-digit day, two-digit month, four-digit year, a colon, two-digit hour
and minute on the 24-hour clock, all zero-padded. -/
def zeroPaddedMatch (s : String) : Bool :=
  match s.data with
  | [d1, d2, m1, m2, y1, y2, y3, y4, c, h1, h2, n1, n2] =>
    (c == ':') && d1.isDigit && d2.isDigit && m1.isDigit && m2.isDigit
      && y1.isDigit && y2.isDigit && y3.isDigit && y4.isDigit
      && h1.isDigit && h2.isDigit && n1.isDigit && n2.isDigit
      && decide (1 ≤ natOfDigits [d1, d2]) && decide (natOfDigits [d1, d2] ≤ 31)
      && decide (1 ≤ natOfDigits [m1, m2]) && decide (natOfDigits [m1, m2] ≤ 12)
      && decide (natOfDigits [h1, h2] ≤ 23) && decide (natOfDigits [n1, n2] ≤ 59)
  | _ => false

/-- Counterexample to C8 as stated: `"1012024:0000"` (seven digits before
the colon, so NOT of the zero-padded form) is happily parsed by
`strptime` as day 10, month 1, year 2024, because `%d` and `%m` also
accept unpadded one- and two-digit values. -/
theorem parse_timestamp_counterexample :
    zeroPaddedMatch "1012024:0000" = false
    ∧ (parse_timestamp "1012024:0000").isSome = true := by
  constructor
  · rfl
  · rfl

theorem char_eq_of_toNat_eq (c d : Char) (h : c.toNat = d.toNat) : c = d :=
  Char.ext_iff.mpr (UInt32.ext h)

theorem digit_toNat_bounds (c : Char) (h : c.isDigit = true) :
    48 ≤ c.toNat ∧ c.toNat ≤ 57 := by
  simp [Char.isDigit] at h
  exact h

theorem digitVal_le_nine (c : Char) (h : c.isDigit = true) : digitVal c ≤ 9 := by
  obtain ⟨h1, h2⟩ := digit_toNat_bounds c h
  simp only [digitVal]
  omega

theorem digitVal_pos (c : Char) (h : c.isDigit = true) (hne : c ≠ '0') :
    1 ≤ digitVal c := by
  obtain ⟨h1, h2⟩ := digit_toNat_bounds c h
  have h3 : c.toNat ≠ 48 := by
    intro he
    apply hne
    apply char_eq_of_toNat_eq
    rw [he]
    rfl
  simp only [digitVal]
  omega

theorem natOfDigits_one (a : Char) : natOfDigits [a] = digitVal a := by
  simp only [natOfDigits, List.foldl]
  omega

theorem natOfDigits_two (a b : Char) :
    natOfDigits [a, b] = 10 * digitVal a + digitVal b := by
  simp only [natOfDigits, List.foldl]
  omega

theorem natOfDigits_four (a b c d : Char) :
    natOfDigits [a, b, c, d]
      = 1000 * digitVal a + 100 * digitVal b + 10 * digitVal c + digitVal d := by
  simp only [natOfDigits, List.foldl]
  omega

theorem parseDay2_sound (cs : List Char) (d : Nat) (rest : List Char)
    (h : parseDay2 cs = some (d, rest)) :
    ∃ ds, cs = ds ++ rest ∧ ds.length = 2 ∧ (∀ c ∈ ds, c.isDigit = true)
      ∧ natOfDigits ds = d ∧ 1 ≤ d ∧ d ≤ 31 := by
  match cs with
  | [] => simp [parseDay2] at h
  | [c] => simp [parseDay2] at h
  | c1 :: c2 :: tail =>
    simp only [parseDay2] at h
    split_ifs at h with hc1 hc2 hc3
    · simp only [Option.some.injEq, Prod.mk.injEq] at h
      obtain ⟨hd, hr⟩ := h
      subst hr; subst hd
      simp only [Bool.and_eq_true, Bool.or_eq_true, beq_iff_eq] at hc1
      obtain ⟨rfl, hc1b⟩ := hc1
      rcases hc1b with rfl | rfl
      · exact ⟨['3', '0'], rfl, rfl, by decide, by decide, by decide, by decide⟩
      · exact ⟨['3', '1'], rfl, rfl, by decide, by decide, by decide, by decide⟩
    · simp only [Option.some.injEq, Prod.mk.injEq] at h
      obtain ⟨hd, hr⟩ := h
      subst hr; subst hd
      simp only [Bool.and_eq_true, Bool.or_eq_true, beq_iff_eq] at hc2
      obtain ⟨hc2a, hdig⟩ := hc2
      have hv9 := digitVal_le_nine c2 hdig
      rcases hc2a with rfl | rfl
      · refine ⟨['1', c2], rfl, rfl, ?_, natOfDigits_two _ _, ?_, ?_⟩
        · intro c hc
          simp only [List.mem_cons, List.not_mem_nil, or_false] at hc
          rcases hc with rfl | rfl
          · decide
          · exact hdig
        · have h1 : digitVal '1' = 1 := by decide
          omega
        · have h1 : digitVal '1' = 1 := by decide
          omega
      · refine ⟨['2', c2], rfl, rfl, ?_, natOfDigits_two _ _, ?_, ?_⟩
        · intro c hc
          simp only [List.mem_cons, List.not_mem_nil, or_false] at hc
          rcases hc with rfl | rfl
          · decide
          · exact hdig
        · have h1 : digitVal '2' = 2 := by decide
          omega
        · have h1 : digitVal '2' = 2 := by decide
          omega
    · simp only [Option.some.injEq, Prod.mk.injEq] at h
      obtain ⟨hd, hr⟩ := h
      subst hr; subst hd
      simp only [Bool.and_eq_true, bne_iff_ne, beq_iff_eq] at hc3
      obtain ⟨rfl, hdig, hne⟩ := hc3
      have hv9 := digitVal_le_nine c2 hdig
      have hv1 := digitVal_pos c2 hdig hne
      refine ⟨['0', c2], rfl, rfl, ?_, ?_, ?_, ?_⟩
      · intro c hc
        simp only [List.mem_cons, List.not_mem_nil, or_false] at hc
        rcases hc with rfl | rfl
        · decide
        · exact hdig
      · rw [natOfDigits_two]
        have h1 : digitVal '0' = 0 := by decide
        omega
      · omega
      · omega

theorem parseDay1_sound (cs : List Char) (d : Nat) (rest : List Char)
    (h : parseDay1 cs = some (d, rest)) :
    ∃ ds, cs = ds ++ rest ∧ ds.length = 1 ∧ (∀ c ∈ ds, c.isDigit = true)
      ∧ natOfDigits ds = d ∧ 1 ≤ d ∧ d ≤ 31 := by
  match cs with
  | [] => simp [parseDay1] at h
  | c :: tail =>
    simp only [parseDay1] at h
    split_ifs at h with hc
    · simp only [Option.some.injEq, Prod.mk.injEq] at h
      obtain ⟨hd, hr⟩ := h
      subst hr; subst hd
      simp only [Bool.and_eq_true, bne_iff_ne] at hc
      obtain ⟨hdig, hne⟩ := hc
      have hv9 := digitVal_le_nine c hdig
      have hv1 := digitVal_pos c hdig hne
      refine ⟨[c], rfl, rfl, ?_, natOfDigits_one c, hv1, by omega⟩
      intro x hx
      simp only [List.mem_singleton] at hx
      subst hx
      exact hdig

theorem parseMonth2_sound (cs : List Char) (m : Nat) (rest : List Char)
    (h : parseMonth2 cs = some (m, rest)) :
    ∃ ms, cs = ms ++ rest ∧ ms.length = 2 ∧ (∀ c ∈ ms, c.isDigit = true)
      ∧ natOfDigits ms = m ∧ 1 ≤ m ∧ m ≤ 12 := by
  match cs with
  | [] => simp [parseMonth2] at h
  | [c] => simp [parseMonth2] at h
  | c1 :: c2 :: tail =>
    simp only [parseMonth2] at h
    split_ifs at h with hc1 hc2
    · simp only [Option.some.injEq, Prod.mk.injEq] at h
      obtain ⟨hd, hr⟩ := h
      subst hr; subst hd
      simp only [Bool.and_eq_true, Bool.or_eq_true, beq_iff_eq] at hc1
      obtain ⟨rfl, hc1b⟩ := hc1
      rcases hc1b with (rfl | rfl) | rfl
      · exact ⟨['1', '0'], rfl, rfl, by decide, by decide, by decide, by decide⟩
      · exact ⟨['1', '1'], rfl, rfl, by decide, by decide, by decide, by decide⟩
      · exact ⟨['1', '2'], rfl, rfl, by decide, by decide, by decide, by decide⟩
    · simp only [Option.some.injEq, Prod.mk.injEq] at h
      obtain ⟨hd, hr⟩ := h
      subst hr; subst hd
      simp only [Bool.and_eq_true, bne_iff_ne, beq_iff_eq] at hc2
      obtain ⟨rfl, hdig, hne⟩ := hc2
      have hv9 := digitVal_le_nine c2 hdig
      have hv1 := digitVal_pos c2 hdig hne
      refine ⟨['0', c2], rfl, rfl, ?_, ?_, ?_, ?_⟩
      · intro c hc
        simp only [List.mem_cons, List.not_mem_nil, or_false] at hc
        rcases hc with rfl | rfl
        · decide
        · exact hdig
      · rw [natOfDigits_two]
        have h1 : digitVal '0' = 0 := by decide
        omega
      · omega
      · omega

theorem parseMonth1_sound (cs : List Char) (m : Nat) (rest : List Char)
    (h : parseMonth1 cs = some (m, rest)) :
    ∃ ms, cs = ms ++ rest ∧ ms.length = 1 ∧ (∀ c ∈ ms, c.isDigit = true)
      ∧ natOfDigits ms = m ∧ 1 ≤ m ∧ m ≤ 12 := by
  match cs with
  | [] => simp [parseMonth1] at h
  | c :: tail =>
    simp only [parseMonth1] at h
    split_ifs at h with hc
    · simp only [Option.some.injEq, Prod.mk.injEq] at h
      obtain ⟨hd, hr⟩ := h
      subst hr; subst hd
      simp only [Bool.and_eq_true, bne_iff_ne] at hc
      obtain ⟨hdig, hne⟩ := hc
      have hv9 := digitVal_le_nine c hdig
      have hv1 := digitVal_pos c hdig hne
      refine ⟨[c], rfl, rfl, ?_, natOfDigits_one c, hv1, by omega⟩
      intro x hx
      simp only [List.mem_singleton] at hx
      subst hx
      exact hdig

theorem parseYear4_sound (cs : List Char) (y : Nat) (rest : List Char)
    (h : parseYear4 cs = some (y, rest)) :
    ∃ ys, cs = ys ++ rest ∧ ys.length = 4 ∧ (∀ c ∈ ys, c.isDigit = true)
      ∧ natOfDigits ys = y := by
  match cs with
  | [] => simp [parseYear4] at h
  | [a] => simp [parseYear4] at h
  | [a, b] => simp [parseYear4] at h
  | [a, b, c] => simp [parseYear4] at h
  | a :: b :: c :: d :: tail =>
    simp only [parseYear4] at h
    split_ifs at h with hc
    · simp only [Option.some.injEq, Prod.mk.injEq] at h
      obtain ⟨hd, hr⟩ := h
      subst hr; subst hd
      simp only [Bool.and_eq_true] at hc
      obtain ⟨⟨⟨ha, hb⟩, hcd⟩, hdd⟩ := hc
      refine ⟨[a, b, c, d], rfl, rfl, ?_, ?_⟩
      · intro x hx
        simp only [List.mem_cons, List.not_mem_nil, or_false] at hx
        rcases hx with rfl | rfl | rfl | rfl
        · exact ha
        · exact hb
        · exact hcd
        · exact hdd
      · rw [natOfDigits_four]

theorem parseHour2_sound (cs : List Char) (v : Nat) (rest : List Char)
    (h : parseHour2 cs = some (v, rest)) :
    ∃ hs, cs = hs ++ rest ∧ hs.length = 2 ∧ (∀ c ∈ hs, c.isDigit = true)
      ∧ natOfDigits hs = v ∧ v ≤ 23 := by
  match cs with
  | [] => simp [parseHour2] at h
  | [c] => simp [parseHour2] at h
  | c1 :: c2 :: tail =>
    simp only [parseHour2] at h
    split_ifs at h with hc1 hc2
    · simp only [Option.some.injEq, Prod.mk.injEq] at h
      obtain ⟨hd, hr⟩ := h
      subst hr; subst hd
      simp only [Bool.and_eq_true, Bool.or_eq_true, beq_iff_eq] at hc1
      obtain ⟨rfl, hc1b⟩ := hc1
      rcases hc1b with ((rfl | rfl) | rfl) | rfl
      · exact ⟨['2', '0'], rfl, rfl, by decide, by decide, by decide⟩
      · exact ⟨['2', '1'], rfl, rfl, by decide, by decide, by decide⟩
      · exact ⟨['2', '2'], rfl, rfl, by decide, by decide, by decide⟩
      · exact ⟨['2', '3'], rfl, rfl, by decide, by decide, by decide⟩
    · simp only [Option.some.injEq, Prod.mk.injEq] at h
      obtain ⟨hd, hr⟩ := h
      subst hr; subst hd
      simp only [Bool.and_eq_true, Bool.or_eq_true, beq_iff_eq] at hc2
      obtain ⟨hc2a, hdig⟩ := hc2
      have hv9 := digitVal_le_nine c2 hdig
      rcases hc2a with rfl | rfl
      · refine ⟨['0', c2], rfl, rfl, ?_, natOfDigits_two _ _, ?_⟩
        · intro c hc
          simp only [List.mem_cons, List.not_mem_nil, or_false] at hc
          rcases hc with rfl | rfl
          · decide
          · exact hdig
        · have h1 : digitVal '0' = 0 := by decide
          omega
      · refine ⟨['1', c2], rfl, rfl, ?_, natOfDigits_two _ _, ?_⟩
        · intro c hc
          simp only [List.mem_cons, List.not_mem_nil, or_false] at hc
          rcases hc with rfl | rfl
          · decide
          · exact hdig
        · have h1 : digitVal '1' = 1 := by decide
          omega

theorem parseHour1_sound (cs : List Char) (v : Nat) (rest : List Char)
    (h : parseHour1 cs = some (v, rest)) :
    ∃ hs, cs = hs ++ rest ∧ hs.length = 1 ∧ (∀ c ∈ hs, c.isDigit = true)
      ∧ natOfDigits hs = v ∧ v ≤ 23 := by
  match cs with
  | [] => simp [parseHour1] at h
  | c :: tail =>
    simp only [parseHour1] at h
    split_ifs at h with hc
    · simp only [Option.some.injEq, Prod.mk.injEq] at h
      obtain ⟨hd, hr⟩ := h
      subst hr; subst hd
      have hv9 := digitVal_le_nine c hc
      refine ⟨[c], rfl, rfl, ?_, natOfDigits_one c, by omega⟩
      intro x hx
      simp only [List.mem_singleton] at hx
      subst hx
      exact hc

theorem min2_branch (c1 c2 : Char) (tail : List Char)
    (hdig : c2.isDigit = true) (hd1 : c1.isDigit = true) (hle : digitVal c1 ≤ 5) :
    ∃ ns, c1 :: c2 :: tail = ns ++ tail ∧ ns.length = 2
      ∧ (∀ c ∈ ns, c.isDigit = true)
      ∧ natOfDigits ns = 10 * digitVal c1 + digitVal c2
      ∧ 10 * digitVal c1 + digitVal c2 ≤ 59 := by
  have hv9 := digitVal_le_nine c2 hdig
  refine ⟨[c1, c2], rfl, rfl, ?_, natOfDigits_two _ _, by omega⟩
  intro c hc
  simp only [List.mem_cons, List.not_mem_nil, or_false] at hc
  rcases hc with rfl | rfl
  · exact hd1
  · exact hdig

theorem parseMin2_sound (cs : List Char) (v : Nat) (rest : List Char)
    (h : parseMin2 cs = some (v, rest)) :
    ∃ ns, cs = ns ++ rest ∧ ns.length = 2 ∧ (∀ c ∈ ns, c.isDigit = true)
      ∧ natOfDigits ns = v ∧ v ≤ 59 := by
  match cs with
  | [] => simp [parseMin2] at h
  | [c] => simp [parseMin2] at h
  | c1 :: c2 :: tail =>
    simp only [parseMin2] at h
    split_ifs at h with hc1
    · simp only [Option.some.injEq, Prod.mk.injEq] at h
      obtain ⟨hd, hr⟩ := h
      subst hr; subst hd
      simp only [Bool.and_eq_true, Bool.or_eq_true, beq_iff_eq] at hc1
      obtain ⟨hc1a, hdig⟩ := hc1
      have hv9 := digitVal_le_nine c2 hdig
      rcases hc1a with ((((rfl | rfl) | rfl) | rfl) | rfl) | rfl <;>
        exact min2_branch _ c2 tail hdig (by decide) (by decide)

theorem parseMin1_sound (cs : List Char) (v : Nat) (rest : List Char)
    (h : parseMin1 cs = some (v, rest)) :
    ∃ ns, cs = ns ++ rest ∧ ns.length = 1 ∧ (∀ c ∈ ns, c.isDigit = true)
      ∧ natOfDigits ns = v ∧ v ≤ 59 := by
  match cs with
  | [] => simp [parseMin1] at h
  | c :: tail =>
    simp only [parseMin1] at h
    split_ifs at h with hc
    · simp only [Option.some.injEq, Prod.mk.injEq] at h
      obtain ⟨hd, hr⟩ := h
      subst hr; subst hd
      have hv9 := digitVal_le_nine c hc
      refine ⟨[c], rfl, rfl, ?_, natOfDigits_one c, by omega⟩
      intro x hx
      simp only [List.mem_singleton] at hx
      subst hx
      exact hc

theorem parseColon_sound (cs rest : List Char) (h : parseColon cs = some rest) :
    cs = ':' :: rest := by
  match cs with
  | [] => simp [parseColon] at h
  | c :: tail =>
    simp only [parseColon] at h
    split_ifs at h with hc
    · simp only [Option.some.injEq] at h
      subst h
      simp only [beq_iff_eq] at hc
      subst hc
      rfl

theorem parseMinuteEnd_sound (cs : List Char) (mm : Nat)
    (h : parseMinuteEnd cs = some mm) :
    (cs.length = 1 ∨ cs.length = 2) ∧ (∀ c ∈ cs, c.isDigit = true)
      ∧ natOfDigits cs = mm ∧ mm ≤ 59 := by
  rw [parseMinuteEnd] at h
  rcases (Option.orElse_eq_some _ _ _).mp h with h1 | ⟨_, h1⟩
  · simp only [Option.bind_eq_some] at h1
    obtain ⟨⟨v, rst⟩, hp, hif⟩ := h1
    split_ifs at hif with hre
    · simp only [Option.some.injEq] at hif
      subst hif
      have hrst : rst = [] := by simpa using hre
      subst hrst
      obtain ⟨ns, hcs, hlen, hdig, hval, hb⟩ := parseMin2_sound cs v [] hp
      rw [List.append_nil] at hcs
      subst hcs
      exact ⟨Or.inr hlen, hdig, hval, hb⟩
  · simp only [Option.bind_eq_some] at h1
    obtain ⟨⟨v, rst⟩, hp, hif⟩ := h1
    split_ifs at hif with hre
    · simp only [Option.some.injEq] at hif
      subst hif
      have hrst : rst = [] := by simpa using hre
      subst hrst
      obtain ⟨ns, hcs, hlen, hdig, hval, hb⟩ := parseMin1_sound cs v [] hp
      rw [List.append_nil] at hcs
      subst hcs
      exact ⟨Or.inl hlen, hdig, hval, hb⟩

theorem parseHM_sound (cs : List Char) (hh mm : Nat)
    (h : parseHM cs = some (hh, mm)) :
    ∃ hs ns, cs = hs ++ ns
      ∧ (hs.length = 1 ∨ hs.length = 2) ∧ (∀ c ∈ hs, c.isDigit = true)
      ∧ natOfDigits hs = hh ∧ hh ≤ 23
      ∧ (ns.length = 1 ∨ ns.length = 2) ∧ (∀ c ∈ ns, c.isDigit = true)
      ∧ natOfDigits ns = mm ∧ mm ≤ 59 := by
  rw [parseHM] at h
  rcases (Option.orElse_eq_some _ _ _).mp h with h1 | ⟨_, h1⟩
  · simp only [Option.bind_eq_some, Option.map_eq_some'] at h1
    obtain ⟨⟨v, rst⟩, hp, mv, hme, heq⟩ := h1
    obtain ⟨rfl, rfl⟩ : v = hh ∧ mv = mm := by
      simpa [Prod.ext_iff] using heq
    obtain ⟨hs, hcs, hlen, hdig, hval, hb⟩ := parseHour2_sound cs v rst hp
    obtain ⟨hlen2, hdig2, hval2, hb2⟩ := parseMinuteEnd_sound rst mv hme
    exact ⟨hs, rst, hcs, Or.inr hlen, hdig, hval, hb, hlen2, hdig2, hval2, hb2⟩
  · simp only [Option.bind_eq_some, Option.map_eq_some'] at h1
    obtain ⟨⟨v, rst⟩, hp, mv, hme, heq⟩ := h1
    obtain ⟨rfl, rfl⟩ : v = hh ∧ mv = mm := by
      simpa [Prod.ext_iff] using heq
    obtain ⟨hs, hcs, hlen, hdig, hval, hb⟩ := parseHour1_sound cs v rst hp
    obtain ⟨hlen2, hdig2, hval2, hb2⟩ := parseMinuteEnd_sound rst mv hme
    exact ⟨hs, rst, hcs, Or.inl hlen, hdig, hval, hb, hlen2, hdig2, hval2, hb2⟩

theorem parseYearColonHM_sound (cs : List Char) (y hh mm : Nat)
    (h : parseYearColonHM cs = some (y, hh, mm)) :
    ∃ ys hs ns, cs = ys ++ (':' :: (hs ++ ns))
      ∧ ys.length = 4 ∧ (∀ c ∈ ys, c.isDigit = true) ∧ natOfDigits ys = y
      ∧ (hs.length = 1 ∨ hs.length = 2) ∧ (∀ c ∈ hs, c.isDigit = true)
      ∧ natOfDigits hs = hh ∧ hh ≤ 23
      ∧ (ns.length = 1 ∨ ns.length = 2) ∧ (∀ c ∈ ns, c.isDigit = true)
      ∧ natOfDigits ns = mm ∧ mm ≤ 59 := by
  rw [parseYearColonHM] at h
  simp only [Option.bind_eq_some, Option.map_eq_some'] at h
  obtain ⟨⟨yv, rst⟩, hy, rst2, hcolon, ⟨hv, mv⟩, hhm, heq⟩ := h
  obtain ⟨rfl, rfl, rfl⟩ : yv = y ∧ hv = hh ∧ mv = mm := by
    simpa [Prod.ext_iff] using heq
  obtain ⟨ys, hcs, hlen, hdig, hval⟩ := parseYear4_sound cs yv rst hy
  have hrst : rst = ':' :: rst2 := parseColon_sound rst rst2 hcolon
  obtain ⟨hs, ns, hcs2, hrest⟩ := parseHM_sound rst2 hv mv hhm
  subst hcs2
  subst hrst
  subst hcs
  exact ⟨ys, hs, ns, rfl, hlen, hdig, hval, hrest⟩

theorem parseFromMonth_sound (cs : List Char) (m y hh mm : Nat)
    (h : parseFromMonth cs = some (m, y, hh, mm)) :
    ∃ ms ys hs ns, cs = ms ++ (ys ++ (':' :: (hs ++ ns)))
      ∧ (ms.length = 1 ∨ ms.length = 2) ∧ (∀ c ∈ ms, c.isDigit = true)
      ∧ natOfDigits ms = m ∧ 1 ≤ m ∧ m ≤ 12
      ∧ ys.length = 4 ∧ (∀ c ∈ ys, c.isDigit = true) ∧ natOfDigits ys = y
      ∧ (hs.length = 1 ∨ hs.length = 2) ∧ (∀ c ∈ hs, c.isDigit = true)
      ∧ natOfDigits hs = hh ∧ hh ≤ 23
      ∧ (ns.length = 1 ∨ ns.length = 2) ∧ (∀ c ∈ ns, c.isDigit = true)
      ∧ natOfDigits ns = mm ∧ mm ≤ 59 := by
  rw [parseFromMonth] at h
  rcases (Option.orElse_eq_some _ _ _).mp h with h1 | ⟨_, h1⟩
  · simp only [Option.bind_eq_some, Option.map_eq_some'] at h1
    obtain ⟨⟨v, rst⟩, hp, ⟨yv, hv, mv⟩, hrest, heq⟩ := h1
    obtain ⟨rfl, rfl, rfl, rfl⟩ : v = m ∧ yv = y ∧ hv = hh ∧ mv = mm := by
      simpa [Prod.ext_iff] using heq
    obtain ⟨ms, hcs, hlen, hdig, hval, hb1, hb2⟩ := parseMonth2_sound cs v rst hp
    obtain ⟨ys, hs, ns, hcs2, hrest2⟩ := parseYearColonHM_sound rst yv hv mv hrest
    subst hcs2
    subst hcs
    exact ⟨ms, ys, hs, ns, rfl, Or.inr hlen, hdig, hval, hb1, hb2, hrest2⟩
  · simp only [Option.bind_eq_some, Option.map_eq_some'] at h1
    obtain ⟨⟨v, rst⟩, hp, ⟨yv, hv, mv⟩, hrest, heq⟩ := h1
    obtain ⟨rfl, rfl, rfl, rfl⟩ : v = m ∧ yv = y ∧ hv = hh ∧ mv = mm := by
      simpa [Prod.ext_iff] using heq
    obtain ⟨ms, hcs, hlen, hdig, hval, hb1, hb2⟩ := parseMonth1_sound cs v rst hp
    obtain ⟨ys, hs, ns, hcs2, hrest2⟩ := parseYearColonHM_sound rst yv hv mv hrest
    subst hcs2
    subst hcs
    exact ⟨ms, ys, hs, ns, rfl, Or.inl hlen, hdig, hval, hb1, hb2, hrest2⟩

theorem parseFields_sound (cs : List Char) (d m y hh mm : Nat)
    (h : parseFields cs = some (d, m, y, hh, mm)) :
    ∃ ds ms ys hs ns, cs = ds ++ (ms ++ (ys ++ (':' :: (hs ++ ns))))
      ∧ (ds.length = 1 ∨ ds.length = 2) ∧ (∀ c ∈ ds, c.isDigit = true)
      ∧ natOfDigits ds = d ∧ 1 ≤ d ∧ d ≤ 31
      ∧ (ms.length = 1 ∨ ms.length = 2) ∧ (∀ c ∈ ms, c.isDigit = true)
      ∧ natOfDigits ms = m ∧ 1 ≤ m ∧ m ≤ 12
      ∧ ys.length = 4 ∧ (∀ c ∈ ys, c.isDigit = true) ∧ natOfDigits ys = y
      ∧ (hs.length = 1 ∨ hs.length = 2) ∧ (∀ c ∈ hs, c.isDigit = true)
      ∧ natOfDigits hs = hh ∧ hh ≤ 23
      ∧ (ns.length = 1 ∨ ns.length = 2) ∧ (∀ c ∈ ns, c.isDigit = true)
      ∧ natOfDigits ns = mm ∧ mm ≤ 59 := by
  rw [parseFields] at h
  rcases (Option.orElse_eq_some _ _ _).mp h with h1 | ⟨_, h1⟩
  · simp only [Option.bind_eq_some, Option.map_eq_some'] at h1
    obtain ⟨⟨v, rst⟩, hp, ⟨mv2, yv, hv, mv⟩, hrest, heq⟩ := h1
    obtain ⟨rfl, rfl, rfl, rfl, rfl⟩ :
        v = d ∧ mv2 = m ∧ yv = y ∧ hv = hh ∧ mv = mm := by
      simpa [Prod.ext_iff] using heq
    obtain ⟨ds, hcs, hlen, hdig, hval, hb1, hb2⟩ := parseDay2_sound cs v rst hp
    obtain ⟨ms, ys, hs, ns, hcs2, hrest2⟩ := parseFromMonth_sound rst mv2 yv hv mv hrest
    subst hcs2
    subst hcs
    exact ⟨ds, ms, ys, hs, ns, rfl, Or.inr hlen, hdig, hval, hb1, hb2, hrest2⟩
  · simp only [Option.bind_eq_some, Option.map_eq_some'] at h1
    obtain ⟨⟨v, rst⟩, hp, ⟨mv2, yv, hv, mv⟩, hrest, heq⟩ := h1
    obtain ⟨rfl, rfl, rfl, rfl, rfl⟩ :
        v = d ∧ mv2 = m ∧ yv = y ∧ hv = hh ∧ mv = mm := by
      simpa [Prod.ext_iff] using heq
    obtain ⟨ds, hcs, hlen, hdig, hval, hb1, hb2⟩ := parseDay1_sound cs v rst hp
    obtain ⟨ms, ys, hs, ns, hcs2, hrest2⟩ := parseFromMonth_sound rst mv2 yv hv mv hrest
    subst hcs2
    subst hcs
    exact ⟨ds, ms, ys, hs, ns, rfl, Or.inl hlen, hdig, hval, hb1, hb2, hrest2⟩

/-- The lenient shape actually accepted by
`strptime(text, '%d%m%Y:%H%M')`: day, month, hour and minute written with
one OR two digits (zero-padding optional), year with exactly four digits,
a literal colon, and the numeric field ranges of the CPython `%d`, `%m`,
`%H`, `%M` group regexes. -/
def LenientForm (s : String) : Prop :=
  ∃ ds ms ys hs ns : List Char,
    s.data = ds ++ (ms ++ (ys ++ (':' :: (hs ++ ns))))
    ∧ (ds.length = 1 ∨ ds.length = 2) ∧ (∀ c ∈ ds, c.isDigit = true)
    ∧ 1 ≤ natOfDigits ds ∧ natOfDigits ds ≤ 31
    ∧ (ms.length = 1 ∨ ms.length = 2) ∧ (∀ c ∈ ms, c.isDigit = true)
    ∧ 1 ≤ natOfDigits ms ∧ natOfDigits ms ≤ 12
    ∧ ys.length = 4 ∧ (∀ c ∈ ys, c.isDigit = true)
    ∧ (hs.length = 1 ∨ hs.length = 2) ∧ (∀ c ∈ hs, c.isDigit = true)
    ∧ natOfDigits hs ≤ 23
    ∧ (ns.length = 1 ∨ ns.length = 2) ∧ (∀ c ∈ ns, c.isDigit = true)
    ∧ natOfDigits ns ≤ 59

theorem parse_timestamp_sound (s : String) (h : parse_timestamp s ≠ none) :
    LenientForm s := by
  rw [parse_timestamp] at h
  cases hf : parseFields s.data with
  | none => rw [hf] at h; exact absurd rfl h
  | some t =>
    obtain ⟨d, m, y, hh, mm⟩ := t
    obtain ⟨ds, ms, ys, hs, ns, hcs, hd1, hd2, hd3, hd4, hd5, hm1, hm2, hm3, hm4,
      hm5, hy1, hy2, hy3, hhh1, hhh2, hhh3, hhh4, hn1, hn2, hn3, hn4⟩ :=
      parseFields_sound s.data d m y hh mm hf
    exact ⟨ds, ms, ys, hs, ns, hcs, hd1, hd2, by omega, by omega, hm1, hm2,
      by omega, by omega, hy1, hy2, hhh1, hhh2, by omega, hn1, hn2, by omega⟩

/-- C8 (amended). The parse fails with a format error for every string
outside the LENIENT pattern accepted by `strptime('%d%m%Y:%H%M')` — one
or two digits for day, month, hour and minute, exactly four digits for
the year, a colon separator, fields in their clock/calendar ranges. The
zero-padded `DDMMYYYY:HHMM` strings of the original claim are a strict
subset of the accepted inputs: `strptime` also accepts unpadded fields,
as the counterexample shows. -/
theorem parse_timestamp_requires_lenient (s : String) (h : ¬ LenientForm s) :
    parse_timestamp s = none := by
  by_contra hn
  exact h (parse_timestamp_sound s hn)

/-- Concrete witness for C8 (amended): `"abc"` is not of the lenient form
(too short), and the parse rejects it. -/
theorem parse_timestamp_requires_lenient_witness :
    ¬ LenientForm "abc" ∧ parse_timestamp "abc" = none := by
  have hn : ¬ LenientForm "abc" := by
    rintro ⟨ds, ms, ys, hs, ns, hcs, hd1, -, -, -, hm1, -, -, -, hy1, -,
      hh1, -, -, hn1, -, -⟩
    have hlen := congrArg List.length hcs
    have h3 : ("abc".data).length = 3 := rfl
    simp only [h3, List.length_append, List.length_cons] at hlen
    rcases hd1 with h | h <;> rcases hm1 with h2 | h2 <;>
      rcases hh1 with h4 | h4 <;> rcases hn1 with h5 | h5 <;> omega
  exact ⟨hn, parse_timestamp_requires_lenient "abc" hn⟩

/-- First instant (midnight) of a civil day in epoch ms: the embedding of
`int(datetime.datetime(y, m, d).timestamp() * 1000)` (UTC model; the
source uses the process-local timezone, a fixed offset irrelevant to the
claims). -/
def dayStartMs (y m d : Nat) : Int := daysFromCivil y m d * 86400000

/-- First instant of a month. -/
def monthStartMs (y m : Nat) : Int := dayStartMs y m 1

/-- First instant of a year. -/
def jan1Ms (y : Nat) : Int := monthStartMs y 1

/-- The year phase of `_get_earliest_timestamp` (src/bybit_daily.py lines
77-98): walk backwards from `currentYear`, probing the first instant of
each year; on a hit, probe the previous year and keep descending while it
also hits (re-probing the adopted year on the next round); stop at the
fixed floor year 2021. Returns the year found (or `none`, the
`No data found` exception) together with the number of probe calls
made. -/
def findYearLoop (probe : Int → Bool) : Nat → Nat → Option Nat × Nat
  | 0, _ => (none, 0)
  | fuel + 1, year =>
    if probe (jan1Ms year) then
      if 2021 < year then
        if probe (jan1Ms (year - 1)) then
          ((findYearLoop probe fuel (year - 1)).1,
           (findYearLoop probe fuel (year - 1)).2 + 2)
        else (some year, 2)
      else (some year, 1)
    else
      ((findYearLoop probe fuel (year - 1)).1,
       (findYearLoop probe fuel (year - 1)).2 + 1)

/-- The month phase (lines 101-113): probe the first instant of months
1..12 of the found year in ascending order, first hit wins. -/
def findMonthLoop (probe : Int → Bool) (y : Nat) : Nat → Nat → Option Nat × Nat
  | 0, _ => (none, 0)
  | fuel + 1, m =>
    if probe (monthStartMs y m) then (some m, 1)
    else
      ((findMonthLoop probe y fuel (m + 1)).1,
       (findMonthLoop probe y fuel (m + 1)).2 + 1)

/-- The day phase (lines 117-132): probe days 1..31 in ascending order,
first hit wins; calendar-invalid day numbers raise `ValueError` inside
the `try` and are skipped without a probe. -/
def findDayLoop (probe : Int → Bool) (y m : Nat) : Nat → Nat → Option Nat × Nat
  | 0, _ => (none, 0)
  | fuel + 1, d =>
    if d ≤ daysInMonth y m then
      if probe (dayStartMs y m d) then (some d, 1)
      else
        ((findDayLoop probe y m fuel (d + 1)).1,
         (findDayLoop probe y m fuel (d + 1)).2 + 1)
    else
      ((findDayLoop probe y m fuel (d + 1)).1,
       (findDayLoop probe y m fuel (d + 1)).2)

/-- `ByBitDataManager._get_earliest_timestamp` (src/bybit_daily.py lines
74-141), with the probe abstracted as a Bool-valued predicate (the real
`_probe_timestamp` is total, see `probe_timestamp`) and the wall-clock
year a parameter. Returns the day-granularity timestamp (or `none` for
the raised exceptions) and the total number of probe calls. -/
def getEarliestTimestamp (probe : Int → Bool) (currentYear : Nat) :
    Option Int × Nat :=
  match findYearLoop probe (currentYear + 1 - 2021) currentYear with
  | (none, c1) => (none, c1)
  | (some y, c1) =>
    match findMonthLoop probe y 12 1 with
    | (none, c2) => (none, c1 + c2)
    | (some m, c2) =>
      match findDayLoop probe y m 31 1 with
      | (none, c3) => (none, c1 + c2 + c3)
      | (some d, c3) => (some (dayStartMs y m d), c1 + c2 + c3)

/-- Counterexample to C9 as stated: for the monotone predicate with
threshold July 1 2022 (true at or above it, false below, well after the
floor year 2021) and current year 2025, the prober returns midnight
January 1 2023 — 184 days after the threshold, not within one day of it —
because each year is probed only at its first instant, so a mid-year
threshold is invisible to its own year. -/
theorem getEarliestTimestamp_counterexample :
    (getEarliestTimestamp
        (fun t => decide (jan1Ms 2022 + 181 * 86400000 ≤ t)) 2025).1
      = some (jan1Ms 2023)
    ∧ jan1Ms 2023 - (jan1Ms 2022 + 181 * 86400000) = 184 * 86400000 := by
  constructor
  · rfl
  · rfl

theorem findYearLoop_succ (probe : Int → Bool) (fuel year : Nat) :
    findYearLoop probe (fuel + 1) year
      = if probe (jan1Ms year) then
          if 2021 < year then
            if probe (jan1Ms (year - 1)) then
              ((findYearLoop probe fuel (year - 1)).1,
               (findYearLoop probe fuel (year - 1)).2 + 2)
            else (some year, 2)
          else (some year, 1)
        else
          ((findYearLoop probe fuel (year - 1)).1,
           (findYearLoop probe fuel (year - 1)).2 + 1) := rfl

theorem findMonthLoop_succ (probe : Int → Bool) (y fuel m : Nat) :
    findMonthLoop probe y (fuel + 1) m
      = if probe (monthStartMs y m) then (some m, 1)
        else
          ((findMonthLoop probe y fuel (m + 1)).1,
           (findMonthLoop probe y fuel (m + 1)).2 + 1) := rfl

theorem findDayLoop_succ (probe : Int → Bool) (y m fuel d : Nat) :
    findDayLoop probe y m (fuel + 1) d
      = if d ≤ daysInMonth y m then
          if probe (dayStartMs y m d) then (some d, 1)
          else
            ((findDayLoop probe y m fuel (d + 1)).1,
             (findDayLoop probe y m fuel (d + 1)).2 + 1)
        else
          ((findDayLoop probe y m fuel (d + 1)).1,
           (findDayLoop probe y m fuel (d + 1)).2) := rfl

theorem findYearLoop_spec (probe : Int → Bool) (C yStar : Nat)
    (h1 : 2021 ≤ yStar)
    (hy : ∀ y, y ≤ C → 2021 ≤ y → (probe (jan1Ms y) = true ↔ yStar ≤ y)) :
    ∀ d, yStar + d ≤ C →
      findYearLoop probe (yStar + d + 1 - 2021) (yStar + d)
        = (some yStar, 2 * d + (if 2021 < yStar then 2 else 1)) := by
  intro d
  induction d with
  | zero =>
    intro hdC
    have hfuel : yStar + 0 + 1 - 2021 = (yStar - 2021) + 1 := by omega
    have hyy : yStar + 0 = yStar := by omega
    rw [hfuel, hyy, findYearLoop_succ]
    have hps : probe (jan1Ms yStar) = true :=
      (hy yStar (by omega) h1).mpr (Nat.le_refl _)
    rw [if_pos hps]
    by_cases hlt : 2021 < yStar
    · rw [if_pos hlt]
      have hpprev : probe (jan1Ms (yStar - 1)) = false := by
        have hiff := hy (yStar - 1) (by omega) (by omega)
        rcases Bool.eq_false_or_eq_true (probe (jan1Ms (yStar - 1))) with h | h
        · have := hiff.mp h
          omega
        · exact h
      rw [if_neg (by simp [hpprev]), if_pos hlt]
    · rw [if_neg hlt, if_neg hlt]
  | succ d ih =>
    intro hdC
    have hfuel : yStar + (d + 1) + 1 - 2021 = (yStar + d + 1 - 2021) + 1 := by
      omega
    rw [hfuel, findYearLoop_succ]
    have hps : probe (jan1Ms (yStar + (d + 1))) = true :=
      (hy _ (by omega) (by omega)).mpr (by omega)
    rw [if_pos hps, if_pos (by omega : 2021 < yStar + (d + 1))]
    have hprev : yStar + (d + 1) - 1 = yStar + d := by omega
    have hpprev : probe (jan1Ms (yStar + (d + 1) - 1)) = true := by
      rw [hprev]
      exact (hy _ (by omega) (by omega)).mpr (by omega)
    rw [if_pos hpprev, hprev, ih (by omega)]
    have hif : (2 * d + (if 2021 < yStar then 2 else 1)) + 2
        = 2 * (d + 1) + (if 2021 < yStar then 2 else 1) := by
      split <;> omega
    exact congrArg (Prod.mk (some yStar)) hif

/-- C9 (amended). For a monotone existence predicate whose year-start
truth threshold is `yStar` (the earliest year at or after the floor year
2021 whose first instant satisfies the predicate, at or before the
current year), the prober returns midnight January 1 of `yStar` — a
year-granularity result that can lie up to a year after the true
threshold, since each year is probed only at its first day and the month
and day scans then hit January 1st on their first probe — and it makes
exactly `2*(currentYear - yStar) + 2` probe calls in the year phase (one
fewer when `yStar` is the floor year itself, where no previous-year probe
is made) plus one month probe and one day probe. -/
theorem getEarliestTimestamp_spec (probe : Int → Bool) (C yStar : Nat)
    (h1 : 2021 ≤ yStar) (h2 : yStar ≤ C)
    (hy : ∀ y, y ≤ C → 2021 ≤ y → (probe (jan1Ms y) = true ↔ yStar ≤ y)) :
    getEarliestTimestamp probe C
      = (some (jan1Ms yStar),
         2 * (C - yStar) + (if 2021 < yStar then 2 else 1) + 2) := by
  have hyear := findYearLoop_spec probe C yStar h1 hy (C - yStar) (by omega)
  have hC : yStar + (C - yStar) = C := by omega
  rw [hC] at hyear
  have hps : probe (jan1Ms yStar) = true := (hy yStar h2 h1).mpr (Nat.le_refl _)
  have hps2 : probe (monthStartMs yStar 1) = true := hps
  have hps3 : probe (dayStartMs yStar 1 1) = true := hps
  have hmonth : findMonthLoop probe yStar 12 1 = (some 1, 1) := by
    rw [show (12 : Nat) = 11 + 1 from rfl, findMonthLoop_succ, if_pos hps2]
  have hday : findDayLoop probe yStar 1 31 1 = (some 1, 1) := by
    have hdim : 1 ≤ daysInMonth yStar 1 := by simp [daysInMonth]
    rw [show (31 : Nat) = 30 + 1 from rfl, findDayLoop_succ, if_pos hdim,
      if_pos hps3]
  unfold getEarliestTimestamp
  rw [hyear]
  dsimp only
  rw [hmonth]
  dsimp only
  rw [hday]
  dsimp only
  simp only [Prod.mk.injEq]
  exact ⟨rfl, True.intro⟩

/-- Concrete witness for C9 (amended): threshold at the first instant of
2023, current year 2025: the prober returns midnight January 1 2023 after
exactly 8 probes. -/
theorem getEarliestTimestamp_spec_witness :
    (2021 ≤ 2023) ∧ (2023 ≤ 2025)
    ∧ (∀ y : Nat, y ≤ 2025 → 2021 ≤ y →
        ((fun t => decide (jan1Ms 2023 ≤ t)) (jan1Ms y) = true ↔ 2023 ≤ y))
    ∧ getEarliestTimestamp (fun t => decide (jan1Ms 2023 ≤ t)) 2025
        = (some (jan1Ms 2023), 8) := by
  have h3 : ∀ y : Nat, y ≤ 2025 → 2021 ≤ y →
      ((fun t => decide (jan1Ms 2023 ≤ t)) (jan1Ms y) = true ↔ 2023 ≤ y) := by
    intro y hy1 hy2
    interval_cases y <;> decide
  refine ⟨by omega, by omega, h3, ?_⟩
  have h := getEarliestTimestamp_spec (fun t => decide (jan1Ms 2023 ≤ t))
    2025 2023 (by omega) (by omega) h3
  simpa using h
